import Mathlib

/-!
Verification development for the noteflow symbolic-music pipeline
(`noteflow_api/app/services/`): chord detection, left-hand accompaniment
synthesis, and notation-export quantization.

Shallow embedding conventions:
* Python `float` seconds are modelled as `ℚ` (the algorithms only ever
  combine the inputs by field operations and comparisons).
* Python `int` is `ℤ`; Python `//` is `Int.fdiv`, `%` on integers is `Int.emod`
  (both match Python's floor/euclidean conventions for the divisors used here),
  `int(x)` on a float is truncation toward zero (`pyTrunc`), and `round` is
  round-half-to-even (`pyRound`).
* Python's stable `list.sort` is modelled by stable insertion sort `sSort`
  (any two stable sorts by a total preorder agree extensionally).
* The MusicXML divisions constant is fixed at 10080 ticks per quarter note,
  as hard-coded in `SheetGenerator.midi_to_musicxml` (divisions = 10080,
  ticks_per_measure = 40320, ticks_per_sixteenth = 2520).
-/

namespace NoteFlow

/-- Python `int(x)` for a float: truncation toward zero. -/
def pyTrunc (x : ℚ) : ℤ := if 0 ≤ x then ⌊x⌋ else -⌊-x⌋

/-- Python `round(x)`: round half to even (banker's rounding). -/
def pyRound (x : ℚ) : ℤ :=
  let f := ⌊x⌋
  let r := x - f
  if r < 1/2 then f
  else if 1/2 < r then f + 1
  else if 2 ∣ f then f else f + 1

/-- Stable insertion of `a` into `l`: `a` goes before the first element `b`
with `le a b`; with a total preorder this reproduces Python's stable sort. -/
def sIns (le : α → α → Bool) (a : α) : List α → List α
  | [] => [a]
  | b :: l => if le a b then a :: b :: l else b :: sIns le a l

/-- Stable insertion sort, modelling Python's stable `list.sort`. -/
def sSort (le : α → α → Bool) : List α → List α
  | [] => []
  | a :: l => sIns le a (sSort le l)

/-- A note event: `pretty_midi.Note` / the pipeline's NoteEvent-like records.
The Python attribute `end` is called `stop` here (`end` is a Lean keyword). -/
structure MNote where
  pitch : ℤ
  start : ℚ
  stop : ℚ
  velocity : ℤ
deriving DecidableEq

/-! ### ChordDetector (`chord_detector.py`) -/

/-- `CHORD_TEMPLATES` of `chord_detector.py`, in declaration order (Python
dicts iterate in insertion order).  Each interval set is listed ascending. -/
def chordTemplates : List (String × List ℕ) :=
  [("major", [0, 4, 7]), ("minor", [0, 3, 7]), ("dim", [0, 3, 6]),
   ("aug", [0, 4, 8]), ("sus4", [0, 5, 7]), ("sus2", [0, 2, 7]),
   ("7", [0, 4, 7, 10]), ("maj7", [0, 4, 7, 11]), ("m7", [0, 3, 7, 10])]

/-- The `Chord` dataclass of `chord_detector.py`. -/
structure ChordR where
  root : ℕ
  quality : String
  start_time : ℚ
  end_time : ℚ
deriving DecidableEq

/-- `Chord.pitches_in_octave`: `sorted(base + root + iv for iv in template)`
with `template = CHORD_TEMPLATES.get(quality, {0,4,7})`.  The templates are
stored ascending, and `iv ↦ base + root + iv` is monotone, so the mapped list
is already the sorted result. -/
def pitchesInOctave (c : ChordR) (octv : ℤ) : List ℤ :=
  let base := (octv + 1) * 12
  let template := (((chordTemplates.find? (fun t => t.1 == c.quality)).map Prod.snd).getD [0, 4, 7])
  template.map (fun iv => base + (c.root : ℤ) + (iv : ℤ))

/-- The per-measure `pitch_class_weight` array of `ChordDetector.detect_chords`
(lines 84-92): for each pitch class, the summed overlap duration with the
measure `[s, e)` of the notes of that class. -/
def pitchClassWeights (notes : List MNote) (s e : ℚ) : List ℚ :=
  (List.range 12).map (fun pc =>
    ((notes.filter (fun n =>
        decide (¬ (n.stop ≤ s)) && decide (¬ (n.start ≥ e)) && decide (n.pitch % 12 = (pc : ℤ)))).map
      (fun n => min n.stop e - max n.start s)).sum)

/-- One template's score in `ChordDetector._match_chord`: chord-tone weight sum
minus `0.3 ×` non-chord weight, then `× 1.1` for major/minor. -/
def templateScore (weights : List ℚ) (root : ℕ) (quality : String) (template : List ℕ) : ℚ :=
  let s := (template.map (fun iv => weights.getD ((root + iv) % 12) 0)).sum
  let nonChordWeight :=
    (((List.range 12).filter (fun i => decide (i ∉ template))).map
      (fun i => weights.getD ((root + i) % 12) 0)).sum
  let s2 := s - nonChordWeight * (3/10)
  if quality = "major" ∨ quality = "minor" then s2 * (11/10) else s2

/-- `ChordDetector._match_chord`: iterate roots 0..11 (outer) and the template
library in declaration order (inner), keep the first strict maximum; the
initial best is `score = -1.0, root = 0, quality = "major"`. -/
def matchChord (weights : List ℚ) (s e : ℚ) : ChordR :=
  let pairs := (List.range 12).flatMap (fun r => chordTemplates.map (fun qt => (r, qt)))
  let best := pairs.foldl
    (fun best rq =>
      let score := templateScore weights rq.1 rq.2.1 rq.2.2
      if score > best.1 then (score, rq.1, rq.2.1) else best)
    ((-1 : ℚ), 0, "major")
  ⟨best.2.1, best.2.2, s, e⟩

/-- `max(n.end for n in notes)` (0 for an empty list; callers guard emptiness). -/
def lastNoteEnd (notes : List MNote) : ℚ := ((notes.map MNote.stop).max?).getD 0

/-- `ChordDetector.detect_chords` (the note collection is taken as the flat
list of all instruments' notes): measure grid of length
`seconds_per_beat × beats_per_measure`, `max(1, int(total/measure) + 1)`
measures, one matched chord per measure. -/
def detectChords (notes : List MNote) (beats : ℤ) (tempo : ℚ) : List ChordR :=
  if notes.isEmpty then []
  else
    let seconds_per_beat := 60 / tempo
    let measure_duration := seconds_per_beat * beats
    let measure_count : ℤ := max 1 (pyTrunc (lastNoteEnd notes / measure_duration) + 1)
    (List.range measure_count.toNat).map (fun (m : ℕ) =>
      let s := (m : ℚ) * measure_duration
      let e := ((m : ℚ) + 1) * measure_duration
      matchChord (pitchClassWeights notes s e) s e)

/-! ### ArrangementPatterns (`arrangement_patterns.py`) -/

/-- The `PatternType` enumeration. -/
inductive PatternType where
  | broken_chord | alberti_bass | octave_root | block_chord
  | arpeggio_up | root_fifth | stride | walking_bass
  | oom_pah | ostinato | power_octave | tremolo_chord | adaptive
deriving DecidableEq, BEq

/-- The `MeasureContext` dataclass. -/
structure MeasureContext where
  measure_index : ℕ
  note_density : ℚ
  avg_velocity : ℚ
  pitch_range : ℤ
  has_sustained : Bool
  tempo : ℚ
  is_first_measure : Bool
  is_last_measure : Bool
  total_measures : ℕ
  prev_density : ℚ
  prev_velocity : ℚ
deriving DecidableEq

/-- The accompaniment note events produced by the generators. -/
structure NoteEvent where
  pitch : ℤ
  start : ℚ
  stop : ℚ
  velocity : ℤ
deriving DecidableEq

/-- `ArrangementPatterns._get_rh_notes_in_range`:
notes with `start ≥ s - 0.01` and `start < e`. -/
def getRhNotesInRange (notes : Option (List MNote)) (s e : ℚ) : List MNote :=
  match notes with
  | none => []
  | some ns => ns.filter (fun n => decide (s - 1/100 ≤ n.start) && decide (n.start < e))

/-- Loop body of `ArrangementPatterns._analyze_contexts`, threading the
previous measure's density and average velocity. -/
def analyzeContextsGo (rh : Option (List MNote)) (tempo : ℚ) (beats : ℤ) (total : ℕ) :
    List ChordR → ℕ → ℚ → ℚ → List MeasureContext
  | [], _, _, _ => []
  | c :: rest, i, prevDensity, prevVelocity =>
      let rhn := getRhNotesInRange rh c.start_time c.end_time
      let density : ℚ := (rhn.length : ℚ) / ((max beats 1 : ℤ) : ℚ)
      let avgVel : ℚ :=
        if rhn.isEmpty then 70
        else (rhn.map (fun n => (n.velocity : ℚ))).sum / (rhn.length : ℚ)
      let pitches : List ℤ := if rhn.isEmpty then [60] else rhn.map MNote.pitch
      let pitchRange : ℤ :=
        if 1 < pitches.length then (pitches.max?.getD 0) - (pitches.min?.getD 0) else 0
      let hasSustained := rhn.any (fun n => decide (60 / tempo * 2 < n.stop - n.start))
      { measure_index := i, note_density := density, avg_velocity := avgVel,
        pitch_range := pitchRange, has_sustained := hasSustained, tempo := tempo,
        is_first_measure := decide (i = 0), is_last_measure := decide (i = total - 1),
        total_measures := total, prev_density := prevDensity, prev_velocity := prevVelocity }
        :: analyzeContextsGo rh tempo beats total rest (i + 1) density avgVel

/-- `ArrangementPatterns._analyze_contexts`. -/
def analyzeContexts (chords : List ChordR) (rh : Option (List MNote)) (tempo : ℚ) (beats : ℤ) :
    List MeasureContext :=
  analyzeContextsGo rh tempo beats chords.length chords 0 0 0

/-- `ArrangementPatterns._is_section_transition`: density jump `> 1.5` or
velocity jump `> 15` versus the previous measure. -/
def isSectionTransition (c : MeasureContext) : Bool :=
  decide (|c.note_density - c.prev_density| > 3/2) || decide (|c.avg_velocity - c.prev_velocity| > 15)

/-- `ArrangementPatterns._adjust_velocity`.  `INTRO_RATIO = 0.08 = 2/25`,
`OUTRO_RATIO = 0.92 = 23/25`, `CHORUS_VELOCITY_THRESHOLD = 75`. -/
def adjustVelocity (base_velocity : ℤ) (ctx : Option MeasureContext) : ℤ :=
  match ctx with
  | none => base_velocity
  | some c =>
    let r : ℚ := (c.measure_index : ℚ) / ((max (c.total_measures - 1) 1 : ℕ) : ℚ)
    if r < 2/25 then max 40 (base_velocity - 15)
    else if r > 23/25 then
      let fade := pyTrunc ((r - 23/25) / (1 - 23/25) * 20)
      max 35 (base_velocity - fade)
    else if c.avg_velocity > 75 then min 100 (base_velocity + 10)
    else base_velocity

/-- `ArrangementPatterns._choose_pattern` (the adaptive selection procedure).
The `chord` and `prevPattern` parameters are accepted but, as in the source,
never read. -/
def choosePattern (ctx : Option MeasureContext) (_chord : ChordR)
    (_prevPattern : Option PatternType) : PatternType :=
  match ctx with
  | none => .broken_chord
  | some c =>
    let tempo := c.tempo
    let density := c.note_density
    let velocity := c.avg_velocity
    let position : ℚ := (c.measure_index : ℚ) / ((max (c.total_measures - 1) 1 : ℕ) : ℚ)
    if position < 2/25 then (if c.is_first_measure then .root_fifth else .octave_root)
    else if position > 23/25 then (if c.is_last_measure then .block_chord else .arpeggio_up)
    else if isSectionTransition c then .ostinato
    else if tempo < 90 then
      (if c.has_sustained then .arpeggio_up
       else if velocity > 75 then .power_octave
       else .octave_root)
    else if tempo < 110 then
      (if velocity > 80 ∧ density > 2 then .power_octave
       else if velocity > 75 then .stride
       else if density < 3/2 then .arpeggio_up
       else .broken_chord)
    else if tempo < 140 then
      (if velocity > 75 ∧ density > 2 then .power_octave
       else if density > c.prev_density + 1/2 ∧ velocity > 65 then .oom_pah
       else if density < 2 then .broken_chord
       else .alberti_bass)
    else if velocity > 80 ∧ density > 3 then .tremolo_chord
    else if density > 3 then .ostinato
    else if velocity > 80 then .stride
    else .alberti_bass

/-- `ArrangementPatterns._root_fifth`: root and fifth together, root again on
beat 3 when there are at least 4 beats. -/
def rootFifth (chord : ChordR) (spb : ℚ) (beats octv vel : ℤ)
    (_ctx : Option MeasureContext) : List NoteEvent :=
  let root := (octv + 1) * 12 + (chord.root : ℤ)
  let fifth := root + 7
  [⟨root, chord.start_time, chord.start_time + spb * (9/5), vel⟩,
   ⟨fifth, chord.start_time, chord.start_time + spb * (9/5), vel⟩] ++
  (if beats ≥ 4 then
    [⟨root, chord.start_time + 2 * spb, chord.start_time + spb * (7/2), vel - 10⟩]
   else [])

/-- `ArrangementPatterns._broken_chord`: root-third-fifth-third on the
quarter-note grid (`sequence[:bpm]`), falling back to `_root_fifth` for fewer
than 3 chord pitches. -/
def brokenChord (chord : ChordR) (spb : ℚ) (beats octv vel : ℤ)
    (ctx : Option MeasureContext) : List NoteEvent :=
  let pitches := pitchesInOctave chord octv
  if pitches.length < 3 then rootFifth chord spb beats octv vel ctx
  else
    let sequence := [pitches.getD 0 0, pitches.getD 1 0, pitches.getD 2 0, pitches.getD 1 0]
    (List.range (min beats.toNat 4)).map (fun i =>
      ⟨sequence.getD i 0, chord.start_time + (i : ℚ) * spb,
       chord.start_time + ((i : ℚ) + 9/10) * spb,
       vel - (if i % 2 = 1 then 5 else 0)⟩)

/-- `ArrangementPatterns._alberti_bass`: low-high-mid-high on the eighth-note
grid (`min(bpm*2, 8)` events), falling back to `_broken_chord` for fewer than
3 chord pitches. -/
def albertiBass (chord : ChordR) (spb : ℚ) (beats octv vel : ℤ)
    (ctx : Option MeasureContext) : List NoteEvent :=
  let pitches := pitchesInOctave chord octv
  if pitches.length < 3 then brokenChord chord spb beats octv vel ctx
  else
    let low := pitches.getD 0 0
    let mid := pitches.getD 1 0
    let high := pitches.getD 2 0
    let patternSeq := [low, high, mid, high, low, high, mid, high]
    let eighth := spb / 2
    (List.range (min (beats * 2) 8).toNat).map (fun i =>
      ⟨patternSeq.getD (i % 8) 0, chord.start_time + (i : ℚ) * eighth,
       chord.start_time + ((i : ℚ) + 17/20) * eighth,
       vel - (if i % 2 = 1 then 8 else 0)⟩)

/-- `ArrangementPatterns._octave_root`: long low-octave root on beat 1, high
octave root on beat 3 when there are at least 3 beats. -/
def octaveRoot (chord : ChordR) (spb : ℚ) (beats octv vel : ℤ)
    (_ctx : Option MeasureContext) : List NoteEvent :=
  let root_low := (octv + 1) * 12 + (chord.root : ℤ)
  let root_high := root_low + 12
  [⟨root_low, chord.start_time, chord.start_time + spb * (9/5), vel⟩] ++
  (if beats ≥ 3 then
    [⟨root_high, chord.start_time + 2 * spb, chord.start_time + spb * (19/5), vel - 10⟩]
   else [])

/-- `ArrangementPatterns._block_chord`: the full chord on beat 1, and also
beat 3 when there are at least 4 beats; note ends clipped to the chord end. -/
def blockChord (chord : ChordR) (spb : ℚ) (beats octv vel : ℤ)
    (_ctx : Option MeasureContext) : List NoteEvent :=
  let pitches := pitchesInOctave chord octv
  let positions : List ℚ := if beats ≥ 4 then [0, 2 * spb] else [0]
  positions.flatMap (fun pos =>
    pitches.map (fun p =>
      ⟨p, chord.start_time + pos,
       min (chord.start_time + pos + spb * (9/5)) chord.end_time, vel⟩))

/-- `ArrangementPatterns._arpeggio_up`: chord pitches plus the octave root,
evenly subdivided across the measure. -/
def arpeggioUp (chord : ChordR) (spb : ℚ) (beats octv vel : ℤ)
    (_ctx : Option MeasureContext) : List NoteEvent :=
  let pitches := pitchesInOctave chord octv
  let arp := pitches ++ [pitches.getD 0 0 + 12]
  let note_dur := spb * (beats : ℚ) / (arp.length : ℚ)
  (List.range arp.length).map (fun i =>
    ⟨arp.getD i 0, chord.start_time + (i : ℚ) * note_dur,
     chord.start_time + ((i : ℚ) + 9/10) * note_dur, vel - 5 + (i : ℤ) * 2⟩)

/-- `ArrangementPatterns._stride`: low root octave on even-indexed beats, the
first three pitches of the chord one octave up on odd-indexed beats. -/
def stride (chord : ChordR) (spb : ℚ) (beats octv vel : ℤ)
    (_ctx : Option MeasureContext) : List NoteEvent :=
  let root_low := (octv + 1) * 12 + (chord.root : ℤ)
  let chordPitches := pitchesInOctave chord (octv + 1)
  (List.range (min beats 4).toNat).flatMap (fun beat =>
    let start := chord.start_time + (beat : ℚ) * spb
    if beat % 2 = 0 then
      [root_low, root_low + 12].map (fun p => ⟨p, start, start + spb * (17/20), vel⟩)
    else
      (chordPitches.take 3).map (fun p => ⟨p, start, start + spb * (3/4), vel - 8⟩))

/-- `ArrangementPatterns._walking_bass`: root, third, fifth, then the chromatic
approach tone below the octave root, one per beat. -/
def walkingBass (chord : ChordR) (spb : ℚ) (beats octv vel : ℤ)
    (_ctx : Option MeasureContext) : List NoteEvent :=
  let root := (octv + 1) * 12 + (chord.root : ℤ)
  let pitches := pitchesInOctave chord octv
  let walk := [pitches.getD 0 0,
               if 1 < pitches.length then pitches.getD 1 0 else root + 4,
               if 2 < pitches.length then pitches.getD 2 0 else root + 7,
               pitches.getD 0 0 + 12 - 1]
  (List.range (min beats 4).toNat).map (fun i =>
    ⟨walk.getD i 0, chord.start_time + (i : ℚ) * spb,
     chord.start_time + ((i : ℚ) + 17/20) * spb,
     vel - (if i % 2 = 1 then 3 else 0)⟩)

/-- `ArrangementPatterns._oom_pah`: octave root on even-indexed beats, the
first three chord pitches on odd-indexed beats. -/
def oomPah (chord : ChordR) (spb : ℚ) (beats octv vel : ℤ)
    (_ctx : Option MeasureContext) : List NoteEvent :=
  let root := (octv + 1) * 12 + (chord.root : ℤ)
  let chordPitches := pitchesInOctave chord octv
  (List.range (min beats 4).toNat).flatMap (fun beat =>
    let start := chord.start_time + (beat : ℚ) * spb
    if beat % 2 = 0 then
      [⟨root, start, start + spb * (4/5), vel⟩]
    else
      (chordPitches.take 3).map (fun p => ⟨p, start, start + spb * (7/10), vel - 10⟩))

/-- `ArrangementPatterns._ostinato`: sixteenth-note cell
root-root-fifth-root-octave-root-fifth-root with a crescendo ramp
(`min(i, 8)` velocity offset), at most 16 events. -/
def ostinato (chord : ChordR) (spb : ℚ) (beats octv vel : ℤ)
    (_ctx : Option MeasureContext) : List NoteEvent :=
  let root := (octv + 1) * 12 + (chord.root : ℤ)
  let fifth := root + 7
  let octave_up := root + 12
  let patternSeq := [root, root, fifth, root, octave_up, root, fifth, root]
  let sixteenth := spb / 4
  (List.range (min (beats * 4) 16).toNat).map (fun i =>
    ⟨patternSeq.getD (i % 8) 0, chord.start_time + (i : ℚ) * sixteenth,
     chord.start_time + ((i : ℚ) + 4/5) * sixteenth,
     min 100 (vel - 10 + min (i : ℤ) 8)⟩)

/-- `ArrangementPatterns._power_octave`: octave roots on beats 1 and 3, third
and fifth as syncopated fills on beats 1.5, 2, 3.5, 4.  Beats 3..4 only when
there are at least 4 beats. -/
def powerOctave (chord : ChordR) (spb : ℚ) (beats octv vel : ℤ)
    (_ctx : Option MeasureContext) : List NoteEvent :=
  let root_low := (octv + 1) * 12 + (chord.root : ℤ)
  let root_high := root_low + 12
  let pitches := pitchesInOctave chord octv
  let third := if 1 < pitches.length then pitches.getD 1 0 else root_low + 4
  let fifth := if 2 < pitches.length then pitches.getD 2 0 else root_low + 7
  [⟨root_low, chord.start_time, chord.start_time + spb * (9/10), vel⟩,
   ⟨root_high, chord.start_time, chord.start_time + spb * (9/10), vel⟩,
   ⟨third, chord.start_time + spb * (1/2), chord.start_time + spb * (9/10), vel - 12⟩,
   ⟨fifth, chord.start_time + spb, chord.start_time + spb * (37/20), vel - 8⟩] ++
  (if beats ≥ 4 then
    [⟨root_low, chord.start_time + 2 * spb, chord.start_time + spb * (29/10), vel - 5⟩,
     ⟨root_high, chord.start_time + 2 * spb, chord.start_time + spb * (29/10), vel - 5⟩,
     ⟨third, chord.start_time + spb * (5/2), chord.start_time + spb * (29/10), vel - 15⟩,
     ⟨fifth, chord.start_time + 3 * spb, chord.start_time + spb * (77/20), vel - 10⟩]
   else [])

/-- `ArrangementPatterns._tremolo_chord`: two alternating dyads at the
eighth-note rate (at most 8 strikes), falling back to `_power_octave` for
fewer than 3 chord pitches. -/
def tremoloChord (chord : ChordR) (spb : ℚ) (beats octv vel : ℤ)
    (ctx : Option MeasureContext) : List NoteEvent :=
  let pitches := pitchesInOctave chord octv
  if pitches.length < 3 then powerOctave chord spb beats octv vel ctx
  else
    let root := pitches.getD 0 0
    let groupA := [root, pitches.getD 2 0]
    let groupB := [pitches.getD 1 0, root + 12]
    let eighth := spb / 2
    (List.range (min (beats * 2) 8).toNat).flatMap (fun i =>
      let group := if i % 2 = 0 then groupA else groupB
      let start := chord.start_time + (i : ℚ) * eighth
      group.map (fun p =>
        ⟨p, start, start + eighth * (4/5), vel - (if i % 2 = 1 then 5 else 0)⟩))

/-- The type of a pattern generator method. -/
abbrev GenFun := ChordR → ℚ → ℤ → ℤ → ℤ → Option MeasureContext → List NoteEvent

/-- The `generators` dispatch dict of `ArrangementPatterns._get_generator`
(12 entries; `ADAPTIVE` is deliberately absent). -/
def dispatchTable : List (PatternType × GenFun) :=
  [(.broken_chord, brokenChord), (.alberti_bass, albertiBass),
   (.octave_root, octaveRoot), (.block_chord, blockChord),
   (.arpeggio_up, arpeggioUp), (.root_fifth, rootFifth),
   (.stride, stride), (.walking_bass, walkingBass),
   (.oom_pah, oomPah), (.ostinato, ostinato),
   (.power_octave, powerOctave), (.tremolo_chord, tremoloChord)]

/-- `ArrangementPatterns._get_generator`: `generators.get(pattern, self._broken_chord)`. -/
def getGenerator (pattern : PatternType) : GenFun :=
  (((dispatchTable.find? (fun t => t.1 == pattern)).map Prod.snd).getD brokenChord)

/-- The per-chord loop of `ArrangementPatterns.generate`, threading the
previous chosen pattern. -/
def genLoop (contexts : List MeasureContext) (pattern : PatternType) (spb : ℚ)
    (beats octv vel : ℤ) : List ChordR → ℕ → Option PatternType → List NoteEvent
  | [], _, _ => []
  | c :: rest, i, prev =>
      let ctx := contexts.get? i
      let chosen := if pattern = PatternType.adaptive then choosePattern ctx c prev else pattern
      let adjusted := adjustVelocity vel ctx
      getGenerator chosen c spb beats octv adjusted ctx ++
        genLoop contexts pattern spb beats octv vel rest (i + 1) (some chosen)

/-- `ArrangementPatterns.generate`. -/
def arrGenerate (chords : List ChordR) (pattern : PatternType) (tempo : ℚ)
    (beats octv vel : ℤ) (rh : Option (List MNote)) : List NoteEvent :=
  let spb := 60 / tempo
  let contexts := analyzeContexts chords rh tempo beats
  genLoop contexts pattern spb beats octv vel chords 0 none

/-! ### MidiConverter (`midi_converter.py`) -/

/-- The `grid_sizes` dict of `MidiConverter.quantize_midi`. -/
def gridSizes (quarter : ℚ) : List (String × ℚ) :=
  [("32nd", quarter / 8), ("16th", quarter / 4), ("8th", quarter / 2), ("quarter", quarter)]

/-- `grid_sizes.get(grid, quarter_duration / 4)`: the grid duration used by
`MidiConverter.quantize_midi`, defaulting to the sixteenth-note grid. -/
def gridSize (grid : String) (quarter : ℚ) : ℚ :=
  (((gridSizes quarter).find? (fun t => t.1 == grid)).map Prod.snd).getD (quarter / 4)

/-! ### SheetGenerator / NotationExporter (`sheet_generator.py`) -/

/-- The `standard_durations` ladder of `SheetGenerator._quantize_duration`
with `divisions = 10080`: whole, dotted half, half, dotted quarter, quarter,
dotted eighth, eighth, sixteenth. -/
def stdDurList : List ℤ :=
  [10080 * 4, 10080 * 3, 10080 * 2, 10080 * 3 / 2, 10080, 10080 * 3 / 4, 10080 / 2, 10080 / 4]

/-- Python's `min(list, key = fun d => |d - ticks|)` starting from a first
candidate: the FIRST element attaining the minimal key wins (strict `<` to
replace the current best). -/
def minByAbs (ticks : ℤ) : List ℤ → ℤ → ℤ
  | [], best => best
  | d :: ds, best => minByAbs ticks ds (if |d - ticks| < |best - ticks| then d else best)

/-- `SheetGenerator._quantize_duration`: nearest standard duration, earlier
ladder entries (longer values) winning ties. -/
def quantizeDuration (ticks : ℤ) : ℤ := minByAbs ticks stdDurList.tail (stdDurList.headD 0)

/-- The `standard_durations_in_eighths` ladder of
`SheetGenerator._merge_consecutive_notes`. -/
def ladderEighths : List ℚ := [8, 6, 4, 3, 2, 3/2, 1, 1/2]

/-- Closing a merge run in `SheetGenerator._merge_consecutive_notes`: the
merged duration (in eighths) is rounded UP to the smallest standard value
`≥` it (`min` over the filtered ladder, defaulting to the ladder head 8). -/
def roundNote (pitch : ℤ) (mstart mend : ℚ) (vel : ℤ) (eighth : ℚ) : MNote :=
  let durEighths := (mend - mstart) / eighth
  let cands := ladderEighths.filter (fun d => decide (durEighths ≤ d))
  let rounded := (cands.min?).getD 8
  ⟨pitch, mstart, mstart + rounded * eighth, vel⟩

/-- The merge loop of `SheetGenerator._merge_consecutive_notes` over one
pitch's time-sorted notes.  The state is the open run
`(pitch, merged_start, merged_end, max_velocity)`; a following note is
absorbed when its gap is `< eighth*2` (`merge_threshold`, one quarter note)
or it starts no later than the current merged end (overlap). -/
def mergeRuns (eighth : ℚ) : List MNote → Option (ℤ × ℚ × ℚ × ℤ) → List MNote
  | [], none => []
  | [], some (p, s, e, v) => [roundNote p s e v eighth]
  | n :: rest, none => mergeRuns eighth rest (some (n.pitch, n.start, n.stop, n.velocity))
  | n :: rest, some (p, s, e, v) =>
      if n.start - e < eighth * 2 ∨ n.start ≤ e then
        mergeRuns eighth rest (some (p, s, max e n.stop, max v n.velocity))
      else
        roundNote p s e v eighth :: mergeRuns eighth rest (some (n.pitch, n.start, n.stop, n.velocity))

/-- The pitches of `notes` in first-occurrence order: the key order of the
`by_pitch` defaultdict built by insertion. -/
def distinctPitches (notes : List MNote) : List ℤ :=
  notes.foldl (fun acc n => if n.pitch ∈ acc then acc else acc ++ [n.pitch]) []

/-- Sort key `n.start` of the per-pitch sort. -/
def startLe (a b : MNote) : Bool := decide (a.start ≤ b.start)

/-- Sort key `(n.start, n.pitch)` of the final sort in
`_merge_consecutive_notes`. -/
def startPitchLe (a b : MNote) : Bool :=
  decide (a.start < b.start) || (decide (a.start = b.start) && decide (a.pitch ≤ b.pitch))

/-- `SheetGenerator._merge_consecutive_notes`: group by pitch (first-occurrence
key order), sort each group by start (stably), merge runs and round their
durations, then sort everything by `(start, pitch)`. -/
def mergeConsecutiveNotes (notes : List MNote) (eighth : ℚ) : List MNote :=
  if notes.isEmpty then notes
  else
    let merged := (distinctPitches notes).flatMap (fun p =>
      mergeRuns eighth (sSort startLe (notes.filter (fun n => n.pitch == p))) none)
    sSort startPitchLe merged

/-- A tick event produced by `SheetGenerator._quantize_notes_for_xml`: the
Python dict `{'pitch', 'velocity', 'start_tick', 'duration_ticks',
'tie_start', 'tie_stop'}`. -/
structure TickEvent where
  pitch : ℤ
  velocity : ℤ
  start_tick : ℤ
  duration_ticks : ℤ
  tie_start : Bool
  tie_stop : Bool
deriving DecidableEq

/-- The continuation-fragment `while remaining > 0` loop of
`_quantize_notes_for_xml` (lines 360-375): chunks of at most one measure
(40320 ticks), each re-quantized; `tie_start` unless it is the last chunk,
`tie_stop` always. -/
def contFrags (pitch vel : ℤ) (current remaining : ℤ) : List TickEvent :=
  if remaining ≤ 0 then []
  else
    let chunk := min remaining 40320
    ⟨pitch, vel, current, quantizeDuration chunk, decide (40320 < remaining), true⟩ ::
      contFrags pitch vel (current + 40320) (remaining - chunk)
termination_by remaining.toNat
decreasing_by simp_wf; omega

/-- The tie-split step of `_quantize_notes_for_xml` (lines 338-385) for one
already-quantized event: if it crosses its measure's end, emit a first
fragment re-quantized to `measure_end - start_tick` with `tie_start`, then
the continuation fragments; otherwise a single un-tied event. -/
def splitEvent (pitch vel start_tick dur : ℤ) : List TickEvent :=
  let measure_start := (Int.fdiv start_tick 40320) * 40320
  let measure_end := measure_start + 40320
  let end_tick := start_tick + dur
  if end_tick > measure_end then
    ⟨pitch, vel, start_tick, quantizeDuration (measure_end - start_tick), true, false⟩ ::
      contFrags pitch vel measure_end (end_tick - measure_end)
  else [⟨pitch, vel, start_tick, dur, false, false⟩]

/-- The per-note body of `_quantize_notes_for_xml`: snap the start and end to
the sixteenth grid with Python `round`, force at least one sixteenth, quantize
the tick duration to the standard ladder, then tie-split. -/
def noteToEvents (sixteenth : ℚ) (n : MNote) : List TickEvent :=
  let s16 := pyRound (n.start / sixteenth)
  let e16 := pyRound (n.stop / sixteenth)
  let e16fixed := if e16 ≤ s16 then s16 + 1 else e16
  splitEvent n.pitch n.velocity (s16 * 2520) (quantizeDuration ((e16fixed - s16) * 2520))

/-- Sort key `(e.start_tick, e.pitch)` of the final event sort. -/
def tickLe (a b : TickEvent) : Bool :=
  decide (a.start_tick < b.start_tick) ||
    (decide (a.start_tick = b.start_tick) && decide (a.pitch ≤ b.pitch))

/-- `SheetGenerator._quantize_notes_for_xml` with `divisions = 10080`:
filter notes shorter than 3/4 of a sixteenth, merge near-duplicate same-pitch
notes (eighth-note parameter), produce tick events per note, sort by
`(start_tick, pitch)`. -/
def quantizeNotesForXml (notes : List MNote) (bpm : ℤ) : List TickEvent :=
  let quarter : ℚ := 60 / (bpm : ℚ)
  let sixteenth := quarter / 4
  let filtered := notes.filter (fun n => decide (sixteenth * (3/4) ≤ n.stop - n.start))
  let merged := mergeConsecutiveNotes filtered (quarter / 2)
  sSort tickLe (merged.flatMap (noteToEvents sixteenth))

/-- The per-measure event selection of `midi_to_musicxml` (lines 174-177):
events whose `start_tick` lies in measure `m`. -/
def measureEvents (events : List TickEvent) (m : ℤ) : List TickEvent :=
  events.filter (fun e => decide (m * 40320 ≤ e.start_tick) && decide (e.start_tick < (m + 1) * 40320))

/-- The `(rel_tick, group_duration)` items processed by
`SheetGenerator._write_voice_to_measure`: in-measure events are grouped by
start tick relative to the measure (`time_groups`), the group keys sorted
ascending, and each group contributes its FIRST event's `duration_ticks`
(`group[0]['duration_ticks']`; chord members share that one written
duration). -/
def voiceItems (events : List TickEvent) (measure_start : ℤ) : List (ℤ × ℤ) :=
  let inEvs := events.filter (fun e =>
    decide (0 ≤ e.start_tick - measure_start) && decide (e.start_tick - measure_start < 40320))
  let rels := (inEvs.map (fun e => e.start_tick - measure_start)).dedup
  (sSort (fun a b => decide (a ≤ b)) rels).map (fun r =>
    (r, (((inEvs.filter (fun e => e.start_tick - measure_start == r)).head?).map
          TickEvent.duration_ticks).getD 0))

/-- The writing loop of `SheetGenerator._write_voice_to_measure`, in ticks
relative to the measure start, returning the sequence of written
`<duration>` values (gap rests, note groups, and the final padding rest) in
emission order.  Chord members repeat their group's duration on non-advancing
`<chord>` notes and are therefore represented once.  State: `cur` is
`current_tick` relative to the measure, `total` is `total_duration_written`.
Mirrors the source exactly: the gap rest is capped by the remaining ticks
from `current_tick` (not by the remaining duration budget); the note duration
is clamped first to the ticks remaining from its start and then to the
remaining budget; the loop breaks on a non-positive clamped duration or a
full budget; a final rest pads any shortfall. -/
def writeGroups : List (ℤ × ℤ) → ℤ → ℤ → List ℤ
  | [], _, total => if total < 40320 then [40320 - total] else []
  | (rel, g) :: rest, cur, total =>
      let gapList : List ℤ :=
        if rel > cur then
          (if min (rel - cur) (40320 - cur) > 0 then [min (rel - cur) (40320 - cur)] else [])
        else []
      let t1 := total + gapList.sum
      let d1 := min g (40320 - rel)
      let d2 := if t1 + d1 > 40320 then 40320 - t1 else d1
      if d2 ≤ 0 then gapList ++ (if t1 < 40320 then [40320 - t1] else [])
      else if 40320 ≤ t1 + d2 then gapList ++ [d2]
      else gapList ++ d2 :: writeGroups rest (rel + d2) (t1 + d2)

/-- `SheetGenerator._write_voice_to_measure` as the sequence of written
durations for one voice in one measure: an empty event list yields a single
whole-measure rest; otherwise the grouped events are written with gap rests
and a final padding rest. -/
def writeVoice (events : List TickEvent) (measure_start : ℤ) : List ℤ :=
  if events.isEmpty then [40320]
  else writeGroups (voiceItems events measure_start) 0 0

/-! ### Derived notions used only to state the claims -/

/-- The raw (pre-requantization) chunk lengths of the continuation loop:
`min(remaining, 40320)` repeatedly. -/
def tieChunks (remaining : ℤ) : List ℤ :=
  if remaining ≤ 0 then []
  else min remaining 40320 :: tieChunks (remaining - min remaining 40320)
termination_by remaining.toNat
decreasing_by simp_wf; omega

/-- The raw spans of the fragments `splitEvent` cuts an event into (before
each fragment is independently re-quantized). -/
def rawFragments (start_tick dur : ℤ) : List ℤ :=
  let measure_end := (Int.fdiv start_tick 40320) * 40320 + 40320
  if start_tick + dur > measure_end then
    (measure_end - start_tick) :: tieChunks (start_tick + dur - measure_end)
  else [dur]

/-- The number of measure boundaries `k * 40320` strictly inside the tick
span `[s, e)` (for `s < e`). -/
def crossings (s e : ℤ) : ℤ := Int.fdiv (e - 1) 40320 - Int.fdiv s 40320

/-! ## Helper lemmas -/

/-- Stable insertion produces a permutation of consing. -/
theorem sIns_perm (le : α → α → Bool) (a : α) (l : List α) :
    List.Perm (sIns le a l) (a :: l) := by
  induction l with
  | nil => rfl
  | cons b t ih =>
      rw [sIns]
      split
      · rfl
      · exact ((ih.cons b).trans (List.Perm.swap a b t))

/-- Stable insertion sort permutes its input. -/
theorem sSort_perm (le : α → α → Bool) (l : List α) : List.Perm (sSort le l) l := by
  induction l with
  | nil => rfl
  | cons a t ih => exact (sIns_perm le a (sSort le t)).trans (ih.cons a)

/-- Membership is preserved by the stable sort. -/
theorem mem_sSort (le : α → α → Bool) (l : List α) (x : α) : x ∈ sSort le l ↔ x ∈ l :=
  (sSort_perm le l).mem_iff

/-- Length is preserved by the stable sort. -/
theorem length_sSort (le : α → α → Bool) (l : List α) : (sSort le l).length = l.length :=
  (sSort_perm le l).length_eq

/-- The first-minimum fold returns its running best or a list element. -/
theorem minByAbs_mem (t : ℤ) (l : List ℤ) (best : ℤ) :
    minByAbs t l best = best ∨ minByAbs t l best ∈ l := by
  induction l generalizing best with
  | nil => exact Or.inl rfl
  | cons d ds ih =>
      rw [minByAbs]
      rcases ih (if |d - t| < |best - t| then d else best) with h | h
      · rw [h]
        split
        · exact Or.inr (by simp)
        · exact Or.inl rfl
      · exact Or.inr (by simp [h])

/-- `_quantize_duration` always returns a standard ladder value. -/
theorem quantizeDuration_mem (t : ℤ) : quantizeDuration t ∈ stdDurList := by
  have h := minByAbs_mem t stdDurList.tail (stdDurList.headD 0)
  rw [quantizeDuration]
  rcases h with h | h
  · rw [h]
    simp [stdDurList]
  · have : stdDurList.tail ⊆ stdDurList := by
      intro x hx
      simp only [stdDurList] at hx ⊢
      simp at hx
      rcases hx with h | h | h | h | h | h | h <;> simp [h]
    exact this h

/-- The continuation loop is empty once `remaining ≤ 0`. -/
theorem contFrags_nonpos (p v cur rem : ℤ) (h : rem ≤ 0) : contFrags p v cur rem = [] := by
  rw [contFrags]
  simp [h]

/-- One step of the continuation loop for `remaining > 0`. -/
theorem contFrags_step (p v cur rem : ℤ) (h : 0 < rem) :
    contFrags p v cur rem =
      ⟨p, v, cur, quantizeDuration (min rem 40320), decide (40320 < rem), true⟩ ::
        contFrags p v (cur + 40320) (rem - min rem 40320) := by
  rw [contFrags]
  simp [not_le.mpr h]

/-- The raw chunk list is empty once `remaining ≤ 0`. -/
theorem tieChunks_nonpos (rem : ℤ) (h : rem ≤ 0) : tieChunks rem = [] := by
  rw [tieChunks]
  simp [h]

/-- One step of the raw chunk list for `remaining > 0`. -/
theorem tieChunks_step (rem : ℤ) (h : 0 < rem) :
    tieChunks rem = min rem 40320 :: tieChunks (rem - min rem 40320) := by
  rw [tieChunks]
  simp [not_le.mpr h]

/-- With all-zero pitch-class weights every template scores exactly 0. -/
theorem templateScore_zero (root : ℕ) (quality : String) (template : List ℕ) :
    templateScore (List.replicate 12 0) root quality template = 0 := by
  have hgetD : ∀ i : ℕ, (List.replicate 12 (0 : ℚ)).getD i 0 = 0 := by
    intro i
    rcases lt_or_ge i 12 with h | h
    · rw [List.getD_eq_getElem?_getD, List.getElem?_replicate, if_pos h]
      rfl
    · rw [List.getD_eq_getElem?_getD, List.getElem?_replicate, if_neg (by omega)]
      rfl
  have hsum : ∀ l : List ℕ,
      ((l.map (fun iv => (List.replicate 12 (0:ℚ)).getD ((root + iv) % 12) 0)).sum) = 0 := by
    intro l
    apply List.sum_eq_zero
    intro x hx
    rcases List.mem_map.mp hx with ⟨iv, _, rfl⟩
    exact hgetD _
  unfold templateScore
  rw [hsum, hsum]
  simp

/-- Folding the best-score update over any pair list leaves a best whose score
is 0 unchanged when every candidate also scores 0. -/
theorem matchFold_const (weights : List ℚ) (l : List (ℕ × String × List ℕ))
    (acc : ℚ × ℕ × String) (h0 : acc.1 = 0)
    (hz : ∀ rq ∈ l, templateScore weights rq.1 rq.2.1 rq.2.2 = 0) :
    l.foldl (fun best rq =>
      let score := templateScore weights rq.1 rq.2.1 rq.2.2
      if score > best.1 then (score, rq.1, rq.2.1) else best) acc = acc := by
  induction l with
  | nil => rfl
  | cons rq rest ih =>
      have hs : templateScore weights rq.1 rq.2.1 rq.2.2 = 0 := hz rq (by simp)
      simp only [List.foldl_cons]
      rw [show (if templateScore weights rq.1 rq.2.1 rq.2.2 > acc.1 then
            (templateScore weights rq.1 rq.2.1 rq.2.2, rq.1, rq.2.1) else acc) = acc by
          rw [hs, h0]; simp]
      exact ih (fun x hx => hz x (by simp [hx]))

/-- Folding the best-score update from the initial best `(-1, 0, "major")`
over a pair list whose candidates all score 0 promotes the FIRST candidate
and keeps it. -/
theorem matchFold_head (weights : List ℚ) (rq0 : ℕ × String × List ℕ)
    (l : List (ℕ × String × List ℕ))
    (h0 : templateScore weights rq0.1 rq0.2.1 rq0.2.2 = 0)
    (hz : ∀ rq ∈ l, templateScore weights rq.1 rq.2.1 rq.2.2 = 0) :
    (rq0 :: l).foldl (fun best rq =>
      let score := templateScore weights rq.1 rq.2.1 rq.2.2
      if score > best.1 then (score, rq.1, rq.2.1) else best) ((-1 : ℚ), 0, "major")
      = (0, rq0.1, rq0.2.1) := by
  simp only [List.foldl_cons]
  rw [show (if templateScore weights rq0.1 rq0.2.1 rq0.2.2 > ((-1 : ℚ), (0:ℕ), "major").1 then
        (templateScore weights rq0.1 rq0.2.1 rq0.2.2, rq0.1, rq0.2.1)
        else ((-1 : ℚ), (0:ℕ), "major")) = ((0 : ℚ), rq0.1, rq0.2.1) by
      rw [h0]; norm_num]
  exact matchFold_const weights l _ rfl hz

/-! ## Claim theorems -/

/-- C4: a measure whose 12 pitch-class weights are all zero matches chord
root 0, quality "major": the first-encountered maximum wins with roots
ascending and template declaration order, and the very first candidate
(root 0, "major", score 0) beats the initial best score of -1. -/
theorem C4_all_silent_measure (s e : ℚ) :
    matchChord (List.replicate 12 0) s e = ⟨0, "major", s, e⟩ := by
  unfold matchChord
  have hpairs : (List.range 12).flatMap
      (fun r => chordTemplates.map (fun qt => (r, qt))) =
      ((0 : ℕ), ("major", [0, 4, 7])) :: ((chordTemplates.tail.map (fun qt => ((0:ℕ), qt))) ++
        ((List.range 11).map Nat.succ).flatMap (fun r => chordTemplates.map (fun qt => (r, qt)))) := by
    rfl
  simp only [hpairs]
  rw [matchFold_head _ _ _ (templateScore_zero ..)
    (by intro rq _; exact templateScore_zero ..)]

/-- C6: the adjusted velocity of `_adjust_velocity` follows the claimed
if-chain: position ratio `< 0.08` gives base−15 floored at 40; else ratio
`> 0.92` gives base minus the truncated linear fade (up to 20) floored at 35;
else `avg_velocity > 75` gives base+10 capped at 100; else the base,
where ratio = measure_index / max(total_measures − 1, 1). -/
theorem C6_adjust_velocity (base : ℤ) (c : MeasureContext) :
    ((c.measure_index : ℚ) / ((max (c.total_measures - 1) 1 : ℕ) : ℚ) < 2/25 →
      adjustVelocity base (some c) = max 40 (base - 15)) ∧
    (¬ (c.measure_index : ℚ) / ((max (c.total_measures - 1) 1 : ℕ) : ℚ) < 2/25 →
      (c.measure_index : ℚ) / ((max (c.total_measures - 1) 1 : ℕ) : ℚ) > 23/25 →
      adjustVelocity base (some c) = max 35 (base -
        pyTrunc (((c.measure_index : ℚ) / ((max (c.total_measures - 1) 1 : ℕ) : ℚ) - 23/25)
          / (1 - 23/25) * 20))) ∧
    (¬ (c.measure_index : ℚ) / ((max (c.total_measures - 1) 1 : ℕ) : ℚ) < 2/25 →
      ¬ (c.measure_index : ℚ) / ((max (c.total_measures - 1) 1 : ℕ) : ℚ) > 23/25 →
      c.avg_velocity > 75 →
      adjustVelocity base (some c) = min 100 (base + 10)) ∧
    (¬ (c.measure_index : ℚ) / ((max (c.total_measures - 1) 1 : ℕ) : ℚ) < 2/25 →
      ¬ (c.measure_index : ℚ) / ((max (c.total_measures - 1) 1 : ℕ) : ℚ) > 23/25 →
      ¬ c.avg_velocity > 75 →
      adjustVelocity base (some c) = base) := by
  refine ⟨fun h1 => ?_, fun h1 h2 => ?_, fun h1 h2 h3 => ?_, fun h1 h2 h3 => ?_⟩
  · simp only [adjustVelocity]
    rw [if_pos h1]
  · simp only [adjustVelocity]
    rw [if_neg h1, if_pos h2]
  · simp only [adjustVelocity]
    rw [if_neg h1, if_neg h2, if_pos h3]
  · simp only [adjustVelocity]
    rw [if_neg h1, if_neg h2, if_neg h3]

/-- C6 witness: a first-of-ten measure has ratio 0 < 0.08, so base 65 fades
to max 40 (65−15) = 50. -/
theorem C6_adjust_velocity_witness :
    adjustVelocity 65 (some ⟨0, 0, 70, 0, false, 120, true, false, 10, 0, 0⟩) =
      max 40 (65 - 15) :=
  (C6_adjust_velocity 65 ⟨0, 0, 70, 0, false, 120, true, false, 10, 0, 0⟩).1 (by norm_num)

/-- C8: a pattern value absent from the 12-entry dispatch table falls back to
the broken-chord generator, and a grid name other than 32nd/16th/8th/quarter
falls back to the sixteenth-note grid size; both lookups are total functions
(no error path). -/
theorem C8_fallbacks :
    (∀ p : PatternType, p ∉ dispatchTable.map Prod.fst → getGenerator p = brokenChord) ∧
    (∀ (g : String) (q : ℚ), g ∉ ["32nd", "16th", "8th", "quarter"] → gridSize g q = q / 4) := by
  constructor
  · intro p hp
    cases p <;> first
      | rfl
      | (exact absurd (by simp [dispatchTable]) hp)
  · intro g q hg
    have e1 : ("32nd" == g) = false := beq_eq_false_iff_ne.mpr (fun h => hg (by simp [← h]))
    have e2 : ("16th" == g) = false := beq_eq_false_iff_ne.mpr (fun h => hg (by simp [← h]))
    have e3 : ("8th" == g) = false := beq_eq_false_iff_ne.mpr (fun h => hg (by simp [← h]))
    have e4 : ("quarter" == g) = false := beq_eq_false_iff_ne.mpr (fun h => hg (by simp [← h]))
    simp [gridSize, gridSizes, List.find?, e1, e2, e3, e4]

/-- C8 witness: the `ADAPTIVE` pattern is not a dispatch-table key and maps to
the broken-chord generator; the grid name "swing" is unknown and maps to the
sixteenth-note grid size. -/
theorem C8_fallbacks_witness :
    getGenerator PatternType.adaptive = brokenChord ∧ gridSize "swing" 1 = 1 / 4 :=
  ⟨C8_fallbacks.1 PatternType.adaptive (by intro hmem; simp [dispatchTable] at hmem),
   C8_fallbacks.2 "swing" 1 (by intro hmem; simp at hmem)⟩

/-- Continuation fragments start on multiples of 2520 (given a 2520-aligned
cursor) and carry ladder durations. -/
theorem contFrags_inv (p v : ℤ) :
    ∀ (n : ℕ) (cur rem : ℤ), rem.toNat ≤ n → 2520 ∣ cur →
      ∀ e ∈ contFrags p v cur rem, 2520 ∣ e.start_tick ∧ e.duration_ticks ∈ stdDurList := by
  intro n
  induction n with
  | zero =>
      intro cur rem hn hd e he
      rw [contFrags_nonpos p v cur rem (by omega)] at he
      exact absurd he (List.not_mem_nil e)
  | succ n ih =>
      intro cur rem hn hd e he
      by_cases hpos : 0 < rem
      · rw [contFrags_step p v cur rem hpos] at he
        rcases List.mem_cons.mp he with rfl | he
        · exact ⟨hd, quantizeDuration_mem _⟩
        · exact ih (cur + 40320) (rem - min rem 40320) (by omega)
            (by exact dvd_add hd ⟨16, by norm_num⟩) e he
      · rw [contFrags_nonpos p v cur rem (by omega)] at he
        exact absurd he (List.not_mem_nil e)

/-- Every fragment of a tie-split event starts on a multiple of 2520 (given a
2520-aligned start) and carries a ladder duration (given a ladder input). -/
theorem splitEvent_inv (p v s d : ℤ) (hs : 2520 ∣ s) (hd : d ∈ stdDurList) :
    ∀ e ∈ splitEvent p v s d, 2520 ∣ e.start_tick ∧ e.duration_ticks ∈ stdDurList := by
  intro e he
  rw [splitEvent] at he
  split at he
  · rcases List.mem_cons.mp he with rfl | he
    · exact ⟨hs, quantizeDuration_mem _⟩
    · exact contFrags_inv p v _ _ _ le_rfl
        ⟨Int.fdiv s 40320 * 16 + 16, by ring⟩ e he
  · rcases List.mem_cons.mp he with rfl | he
    · exact ⟨hs, hd⟩
    · exact absurd he (List.not_mem_nil e)

/-- Every event produced for a single note starts on the 2520-tick sixteenth
grid and has a ladder duration. -/
theorem noteToEvents_inv (sixteenth : ℚ) (n : MNote) :
    ∀ e ∈ noteToEvents sixteenth n, 2520 ∣ e.start_tick ∧ e.duration_ticks ∈ stdDurList := by
  intro e he
  rw [noteToEvents] at he
  exact splitEvent_inv _ _ _ _ ⟨pyRound (n.start / sixteenth), by ring⟩
    (quantizeDuration_mem _) e he

/-- C9: every tick event produced by the notation exporter's quantization —
including every tie-split fragment — has `start_tick` an exact multiple of
2520 (divisions/4, one sixteenth note) and `duration_ticks` drawn from the
eight standard ladder values {2520, 5040, 7560, 10080, 15120, 20160, 30240,
40320}. -/
theorem C9_tick_grid (notes : List MNote) (bpm : ℤ) (e : TickEvent)
    (_hbpm : 0 < bpm) (he : e ∈ quantizeNotesForXml notes bpm) :
    2520 ∣ e.start_tick ∧ e.duration_ticks ∈ stdDurList := by
  rw [quantizeNotesForXml] at he
  rw [mem_sSort] at he
  rcases List.mem_flatMap.mp he with ⟨n, _, hen⟩
  exact noteToEvents_inv _ n e hen

/-- Evaluation of the quantizer on a single one-second middle-C note at
120 BPM: one half-note event at tick 0. -/
theorem quantize_single_note_eval :
    quantizeNotesForXml [⟨60, 0, 1, 64⟩] 120 = [⟨60, 64, 0, 20160, false, false⟩] := by
  norm_num [quantizeNotesForXml, mergeConsecutiveNotes, distinctPitches, sSort, sIns,
    mergeRuns, roundNote, ladderEighths, noteToEvents, pyRound, splitEvent,
    quantizeDuration, minByAbs, stdDurList, tickLe, startLe, startPitchLe,
    List.filter, List.flatMap,
    show Int.fdiv 0 40320 = 0 from by decide]

/-- C9 witness: the event exported for a one-second middle-C note at 120 BPM
starts at tick 0 (a multiple of 2520) with the ladder duration 20160. -/
theorem C9_tick_grid_witness :
    2520 ∣ (⟨60, 64, 0, 20160, false, false⟩ : TickEvent).start_tick ∧
      (⟨60, 64, 0, 20160, false, false⟩ : TickEvent).duration_ticks ∈ stdDurList :=
  C9_tick_grid [⟨60, 0, 1, 64⟩] 120 ⟨60, 64, 0, 20160, false, false⟩ (by norm_num)
    (by rw [quantize_single_note_eval]; exact List.mem_singleton.mpr rfl)

/-- Every standard ladder value is positive. -/
theorem stdDurList_pos (x : ℤ) (h : x ∈ stdDurList) : 0 < x := by
  simp only [stdDurList] at h
  simp at h
  rcases h with h | h | h | h | h | h | h | h <;> omega

/-- `_quantize_duration` is the identity on ladder values (a ladder value is
its own nearest ladder value). -/
theorem quantizeDuration_ladder (x : ℤ) (h : x ∈ stdDurList) : quantizeDuration x = x := by
  simp only [stdDurList] at h
  simp at h
  rcases h with h | h | h | h | h | h | h | h <;> subst h <;> decide

/-- The raw chunks of a nonnegative remainder sum to that remainder. -/
theorem tieChunks_sum : ∀ (n : ℕ) (rem : ℤ), rem.toNat ≤ n → 0 ≤ rem →
    (tieChunks rem).sum = rem := by
  intro n
  induction n with
  | zero =>
      intro rem hn h0
      rw [tieChunks_nonpos rem (by omega)]
      simp
      omega
  | succ n ih =>
      intro rem hn h0
      by_cases hpos : 0 < rem
      · rw [tieChunks_step rem hpos, List.sum_cons, ih (rem - min rem 40320) (by omega) (by omega)]
        omega
      · rw [tieChunks_nonpos rem (by omega)]
        simp
        omega

/-- The number of raw chunks of a nonnegative remainder is
`⌈remainder / 40320⌉`. -/
theorem tieChunks_length : ∀ (n : ℕ) (rem : ℤ), rem.toNat ≤ n → 0 ≤ rem →
    (tieChunks rem).length = ((rem + 40319) / 40320).toNat := by
  intro n
  induction n with
  | zero =>
      intro rem hn h0
      rw [tieChunks_nonpos rem (by omega)]
      simp
      omega
  | succ n ih =>
      intro rem hn h0
      by_cases hpos : 0 < rem
      · rw [tieChunks_step rem hpos, List.length_cons,
          ih (rem - min rem 40320) (by omega) (by omega)]
        omega
      · rw [tieChunks_nonpos rem (by omega)]
        simp
        omega

/-- Continuation fragments carry exactly the requantized raw chunks. -/
theorem contFrags_durations (p v : ℤ) : ∀ (n : ℕ) (cur rem : ℤ), rem.toNat ≤ n →
    (contFrags p v cur rem).map TickEvent.duration_ticks =
      (tieChunks rem).map quantizeDuration := by
  intro n
  induction n with
  | zero =>
      intro cur rem hn
      rw [contFrags_nonpos p v cur rem (by omega), tieChunks_nonpos rem (by omega)]
      rfl
  | succ n ih =>
      intro cur rem hn
      by_cases hpos : 0 < rem
      · rw [contFrags_step p v cur rem hpos, tieChunks_step rem hpos, List.map_cons,
          List.map_cons, ih (cur + 40320) (rem - min rem 40320) (by omega)]
      · rw [contFrags_nonpos p v cur rem (by omega), tieChunks_nonpos rem (by omega)]
        rfl

/-- There are as many continuation fragments as raw chunks. -/
theorem contFrags_length (p v cur rem : ℤ) :
    (contFrags p v cur rem).length = (tieChunks rem).length := by
  have h := congrArg List.length (contFrags_durations p v rem.toNat cur rem le_rfl)
  simpa using h

/-- Every continuation fragment has `tie_stop = true`. -/
theorem contFrags_tie_stop (p v : ℤ) : ∀ (n : ℕ) (cur rem : ℤ), rem.toNat ≤ n →
    (contFrags p v cur rem).map TickEvent.tie_stop =
      List.replicate (contFrags p v cur rem).length true := by
  intro n
  induction n with
  | zero =>
      intro cur rem hn
      rw [contFrags_nonpos p v cur rem (by omega)]
      rfl
  | succ n ih =>
      intro cur rem hn
      by_cases hpos : 0 < rem
      · rw [contFrags_step p v cur rem hpos, List.map_cons, List.length_cons,
          List.replicate_succ, ih (cur + 40320) (rem - min rem 40320) (by omega)]
      · rw [contFrags_nonpos p v cur rem (by omega)]
        rfl

/-- A positive remainder yields at least one continuation fragment. -/
theorem contFrags_pos_length (p v cur rem : ℤ) (h : 0 < rem) :
    0 < (contFrags p v cur rem).length := by
  rw [contFrags_step p v cur rem h]
  simp

/-- Continuation fragments have `tie_start = true` exactly until the last
one. -/
theorem contFrags_tie_start (p v : ℤ) : ∀ (n : ℕ) (cur rem : ℤ), rem.toNat ≤ n → 0 < rem →
    (contFrags p v cur rem).map TickEvent.tie_start =
      List.replicate ((contFrags p v cur rem).length - 1) true ++ [false] := by
  intro n
  induction n with
  | zero =>
      intro cur rem hn hpos
      omega
  | succ n ih =>
      intro cur rem hn hpos
      by_cases h40 : 40320 < rem
      · have hpos2 : 0 < rem - min rem 40320 := by omega
        have hlen := contFrags_pos_length p v (cur + 40320) (rem - min rem 40320) hpos2
        rw [contFrags_step p v cur rem hpos, List.map_cons, List.length_cons,
          ih (cur + 40320) (rem - min rem 40320) (by omega) hpos2]
        rw [show decide (40320 < rem) = true from by simp [h40]]
        rw [show (contFrags p v (cur + 40320) (rem - min rem 40320)).length + 1 - 1 =
          ((contFrags p v (cur + 40320) (rem - min rem 40320)).length - 1) + 1 from by omega]
        rw [List.replicate_succ]
        rfl
      · rw [contFrags_step p v cur rem hpos, List.map_cons, List.length_cons,
          contFrags_nonpos p v (cur + 40320) (rem - min rem 40320) (by omega)]
        rw [show decide (40320 < rem) = false from by simp [h40]]
        rfl

/-- C2 (amended): for an already ladder-quantized event, tie-splitting yields
exactly N+1 fragments where N is the number of measure boundaries its span
crosses; `tie_start` is true exactly on the fragments that continue into the
next measure (all but the last) and `tie_stop` exactly on the fragments that
continue a previous one (all but the first); each fragment's recorded
`duration_ticks` is the independent ladder re-quantization of its raw span;
the raw spans sum exactly to the original duration, so the recorded durations
sum to the original exactly when every raw span is itself a ladder value
(re-quantization of a non-ladder span changes the total). -/
theorem C2_tie_split (p v s d : ℤ) (hd : d ∈ stdDurList) :
    (splitEvent p v s d).length = (crossings s (s + d)).toNat + 1 ∧
    (splitEvent p v s d).map TickEvent.tie_start =
      List.replicate ((splitEvent p v s d).length - 1) true ++ [false] ∧
    (splitEvent p v s d).map TickEvent.tie_stop =
      false :: List.replicate ((splitEvent p v s d).length - 1) true ∧
    (splitEvent p v s d).map TickEvent.duration_ticks =
      (rawFragments s d).map quantizeDuration ∧
    (rawFragments s d).sum = d ∧
    ((∀ c ∈ rawFragments s d, c ∈ stdDurList) →
      ((splitEvent p v s d).map TickEvent.duration_ticks).sum = d) := by
  have hd0 : 0 < d := stdDurList_pos d hd
  have hf : Int.fdiv s 40320 = s / 40320 := Int.fdiv_eq_ediv s (by norm_num)
  have hf2 : Int.fdiv (s + d - 1) 40320 = (s + d - 1) / 40320 :=
    Int.fdiv_eq_ediv (s + d - 1) (by norm_num)
  refine ⟨?_, ?_, ?_, ?_, ?_, ?_⟩
  · rw [splitEvent, crossings]
    split
    · rename_i hcross
      rw [List.length_cons, contFrags_length,
        tieChunks_length (s + d - (Int.fdiv s 40320 * 40320 + 40320)).toNat _ le_rfl
          (by omega)]
      rw [hf] at hcross ⊢
      rw [hf2]
      omega
    · rename_i hcross
      rw [hf] at hcross
      simp only [List.length_singleton]
      rw [hf2]
      omega
  · rw [splitEvent]
    split
    · rename_i hcross
      have hpos : 0 < s + d - (Int.fdiv s 40320 * 40320 + 40320) := by omega
      have hlen := contFrags_pos_length p v (Int.fdiv s 40320 * 40320 + 40320)
        (s + d - (Int.fdiv s 40320 * 40320 + 40320)) hpos
      rw [List.map_cons, List.length_cons,
        contFrags_tie_start p v _ _ _ le_rfl hpos]
      rw [show (contFrags p v (Int.fdiv s 40320 * 40320 + 40320)
          (s + d - (Int.fdiv s 40320 * 40320 + 40320))).length + 1 - 1 =
        ((contFrags p v (Int.fdiv s 40320 * 40320 + 40320)
          (s + d - (Int.fdiv s 40320 * 40320 + 40320))).length - 1) + 1 from by omega]
      rw [List.replicate_succ]
      rfl
    · rfl
  · rw [splitEvent]
    split
    · rename_i hcross
      have hpos : 0 < s + d - (Int.fdiv s 40320 * 40320 + 40320) := by omega
      rw [List.map_cons, List.length_cons,
        contFrags_tie_stop p v _ _ _ le_rfl]
      simp [contFrags_length]
    · rfl
  · rw [splitEvent, rawFragments]
    split
    · rename_i hcross
      rw [List.map_cons, List.map_cons,
        contFrags_durations p v _ _ _ le_rfl]
    · rename_i hcross
      rw [List.map_singleton, List.map_singleton,
        quantizeDuration_ladder d hd]
  · rw [rawFragments]
    split
    · rename_i hcross
      rw [List.sum_cons, tieChunks_sum _ _ le_rfl (by omega)]
      ring
    · simp
  · intro hall
    have hdur : (splitEvent p v s d).map TickEvent.duration_ticks =
        (rawFragments s d).map quantizeDuration := by
      rw [splitEvent, rawFragments]
      split
      · rename_i hcross
        rw [List.map_cons, List.map_cons,
          contFrags_durations p v _ _ _ le_rfl]
      · rename_i hcross
        rw [List.map_singleton, List.map_singleton,
          quantizeDuration_ladder d hd]
    rw [hdur]
    have hmapid : (rawFragments s d).map quantizeDuration = rawFragments s d := by
      apply List.map_congr_left ?_ |>.trans (List.map_id _)
      intro c hc
      exact quantizeDuration_ladder c (hall c hc)
    rw [hmapid]
    rw [rawFragments]
    split
    · rename_i hcross
      rw [List.sum_cons, tieChunks_sum _ _ le_rfl (by omega)]
      ring
    · simp

/-- The raw fragments of the witness event are ladder values. -/
theorem rawFragments_witness_eval : rawFragments 30240 20160 = [10080, 10080] := by
  norm_num [rawFragments, show Int.fdiv 30240 40320 = 0 from by decide,
    tieChunks_step, tieChunks_nonpos]

/-- C2 witness: a ladder event of a half note (20160 ticks) starting at tick
30240 crosses one boundary and splits into 2 = N+1 fragments whose recorded
durations (both raw spans being the ladder value 10080) sum back to 20160. -/
theorem C2_tie_split_witness :
    (splitEvent 60 64 30240 20160).length = (crossings 30240 (30240 + 20160)).toNat + 1 ∧
      ((splitEvent 60 64 30240 20160).map TickEvent.duration_ticks).sum = 20160 :=
  ⟨(C2_tie_split 60 64 30240 20160 (by decide)).1,
   (C2_tie_split 60 64 30240 20160 (by decide)).2.2.2.2.2 (by
      rw [rawFragments_witness_eval]
      intro c hc
      rcases List.mem_cons.mp hc with rfl | hc
      · decide
      · rcases List.mem_cons.mp hc with rfl | hc
        · decide
        · exact absurd hc (List.not_mem_nil c))⟩

/-- Evaluation of the exporter quantization on a note from 1.375 s to 2.125 s
(11 to 17 sixteenths) at 120 BPM: the quantized duration is 15120 ticks
(dotted quarter), the span crosses the measure boundary at tick 40320, and
the two tie fragments carry the re-quantized durations 15120 (from the raw
first span 12600) and 2520. -/
theorem quantize_crossing_note_eval :
    quantizeNotesForXml [⟨60, 11/8, 17/8, 64⟩] 120 =
      [⟨60, 64, 27720, 15120, true, false⟩, ⟨60, 64, 40320, 2520, false, true⟩] := by
  norm_num [quantizeNotesForXml, mergeConsecutiveNotes, distinctPitches, sSort, sIns,
    mergeRuns, roundNote, ladderEighths, noteToEvents, pyRound, splitEvent,
    quantizeDuration, minByAbs, stdDurList, tickLe, startLe, startPitchLe,
    List.filter, List.flatMap, contFrags_step, contFrags_nonpos,
    show Int.fdiv 27720 40320 = 0 from by decide]

/-- C2 counterexample: for the note from 1.375 s to 2.125 s at 120 BPM the
tie-chain's recorded `duration_ticks` sum to 17640, not to the original
quantized duration 15120 — the first fragment's raw span 12600 is re-quantized
up to 15120, exactly as each fragment is rounded to the ladder independently. -/
theorem C2_tie_split_counterexample :
    ((quantizeNotesForXml [⟨60, 11/8, 17/8, 64⟩] 120).map TickEvent.duration_ticks).sum
        = 17640 ∧
      quantizeDuration ((17 - 11) * 2520) = 15120 ∧ (17640 : ℤ) ≠ 15120 := by
  refine ⟨?_, by decide, by decide⟩
  rw [quantize_crossing_note_eval]
  decide

/-- C1: evaluation of the measure writer at the failing input.  The three
overlapping right-hand notes (60 from 0 s to 1.5 s, 62 from 0.125 s to
0.375 s, 64 from 0.75 s to 0.875 s) at 120 BPM quantize to events at ticks
0/2520/15120 with durations 30240/5040/2520; writing voice 1 of measure 1
emits durations 30240, 5040 and a 7560-tick gap rest — 42840 ticks in total,
exceeding ticks_per_measure = 40320, contradicting the claimed (and
documented) per-measure duration conservation. -/
theorem C1_measure_sum_overflow :
    (writeVoice (measureEvents (quantizeNotesForXml
        [⟨60, 0, 3/2, 64⟩, ⟨62, 1/8, 3/8, 64⟩, ⟨64, 3/4, 7/8, 64⟩] 120) 0) 0).sum = 42840 ∧
      (42840 : ℤ) ≠ 40320 := by
  have heval : quantizeNotesForXml
      [⟨60, 0, 3/2, 64⟩, ⟨62, 1/8, 3/8, 64⟩, ⟨64, 3/4, 7/8, 64⟩] 120 =
      [⟨60, 64, 0, 30240, false, false⟩, ⟨62, 64, 2520, 5040, false, false⟩,
       ⟨64, 64, 15120, 2520, false, false⟩] := by
    norm_num [quantizeNotesForXml, mergeConsecutiveNotes, distinctPitches, sSort, sIns,
      mergeRuns, roundNote, ladderEighths, noteToEvents, pyRound, splitEvent,
      quantizeDuration, minByAbs, stdDurList, tickLe, startLe, startPitchLe,
      List.filter, List.flatMap,
      show Int.fdiv 0 40320 = 0 from by decide,
      show Int.fdiv 2520 40320 = 0 from by decide,
      show Int.fdiv 15120 40320 = 0 from by decide]
  rw [heval]
  constructor
  · decide
  · decide

/-- A matched chord carries the measure span it was asked about. -/
theorem matchChord_times (w : List ℚ) (s e : ℚ) :
    (matchChord w s e).start_time = s ∧ (matchChord w s e).end_time = e := by
  rw [matchChord]
  exact ⟨rfl, rfl⟩

/-- C3 (amended): for a non-empty note input (positive tempo and beats,
nonnegative last note end), the chord sequence is a contiguous, gapless,
non-overlapping sequence of spans of length `beats × 60/tempo` starting at 0
that covers `[0, last_note_end)`, and its length is
`⌊last_note_end / measure_length⌋ + 1` — which equals
`⌈last_note_end / measure_length⌉` except when `last_note_end` is an exact
positive multiple of the measure length, where one extra trailing measure is
produced. -/
theorem C3_chord_tiling (notes : List MNote) (beats : ℤ) (tempo : ℚ)
    (hne : notes ≠ []) (ht : 0 < tempo) (hb : 0 < beats) (h0 : 0 ≤ lastNoteEnd notes) :
    (detectChords notes beats tempo).length
        = (⌊lastNoteEnd notes / (60 / tempo * beats)⌋).toNat + 1 ∧
    (∀ k (hk : k < (detectChords notes beats tempo).length),
      ((detectChords notes beats tempo).get ⟨k, hk⟩).start_time = k * (60 / tempo * beats) ∧
      ((detectChords notes beats tempo).get ⟨k, hk⟩).end_time = (k + 1) * (60 / tempo * beats)) ∧
    lastNoteEnd notes ≤ (detectChords notes beats tempo).length * (60 / tempo * beats) := by
  have hmd : 0 < 60 / tempo * (beats : ℚ) := by
    apply mul_pos (by positivity)
    exact_mod_cast hb
  have hq : 0 ≤ lastNoteEnd notes / (60 / tempo * (beats : ℚ)) := div_nonneg h0 hmd.le
  have htr : pyTrunc (lastNoteEnd notes / (60 / tempo * (beats : ℚ)))
      = ⌊lastNoteEnd notes / (60 / tempo * (beats : ℚ))⌋ := by
    rw [pyTrunc, if_pos hq]
  have hfl : 0 ≤ ⌊lastNoteEnd notes / (60 / tempo * (beats : ℚ))⌋ := Int.floor_nonneg.mpr hq
  have hdet : detectChords notes beats tempo =
      (List.range (max 1 (pyTrunc (lastNoteEnd notes / (60 / tempo * (beats : ℚ))) + 1)).toNat).map
        (fun (m : ℕ) =>
          matchChord (pitchClassWeights notes ((m : ℚ) * (60 / tempo * (beats : ℚ)))
              (((m : ℚ) + 1) * (60 / tempo * (beats : ℚ))))
            ((m : ℚ) * (60 / tempo * (beats : ℚ)))
            (((m : ℚ) + 1) * (60 / tempo * (beats : ℚ)))) := by
    rw [detectChords, if_neg (by simp [hne])]
  have hlen : (detectChords notes beats tempo).length
      = (⌊lastNoteEnd notes / (60 / tempo * (beats : ℚ))⌋).toNat + 1 := by
    rw [hdet, List.length_map, List.length_range, htr]
    omega
  have hget : ∀ (k : ℕ) (hk : k < (detectChords notes beats tempo).length),
      (detectChords notes beats tempo).get ⟨k, hk⟩ =
        matchChord (pitchClassWeights notes ((k : ℚ) * (60 / tempo * (beats : ℚ)))
            (((k : ℚ) + 1) * (60 / tempo * (beats : ℚ))))
          ((k : ℚ) * (60 / tempo * (beats : ℚ)))
          (((k : ℚ) + 1) * (60 / tempo * (beats : ℚ))) := by
    intro k hk
    rw [List.get_eq_getElem, List.getElem_of_eq hdet, List.getElem_map, List.getElem_range]
  refine ⟨hlen, fun k hk => ?_, ?_⟩
  · rw [hget k hk]
    exact ⟨(matchChord_times ..).1, (matchChord_times ..).2⟩
  · rw [hlen]
    have hlt := Int.lt_floor_add_one (lastNoteEnd notes / (60 / tempo * (beats : ℚ)))
    have hmul := (div_lt_iff₀ hmd).mp hlt
    have hcast : ((⌊lastNoteEnd notes / (60 / tempo * (beats : ℚ))⌋ : ℤ) : ℚ)
        = (((⌊lastNoteEnd notes / (60 / tempo * (beats : ℚ))⌋).toNat : ℕ) : ℚ) := by
      exact_mod_cast (Int.toNat_of_nonneg hfl).symm
    calc lastNoteEnd notes
        ≤ (⌊lastNoteEnd notes / (60 / tempo * (beats : ℚ))⌋ + 1) * (60 / tempo * (beats : ℚ)) :=
          hmul.le
      _ = ((⌊lastNoteEnd notes / (60 / tempo * (beats : ℚ))⌋).toNat + 1 : ℕ)
            * (60 / tempo * (beats : ℚ)) := by
          rw [hcast]
          push_cast
          ring

/-- C3 witness: one note ending at 3 s, four beats at 120 BPM (measure length
2 s) give `⌊3/2⌋ + 1 = 2` chords. -/
theorem C3_chord_tiling_witness :
    (detectChords [⟨60, 0, 3, 64⟩] 4 120).length
      = (⌊lastNoteEnd [⟨60, 0, 3, 64⟩] / (60 / 120 * 4)⌋).toNat + 1 :=
  (C3_chord_tiling [⟨60, 0, 3, 64⟩] 4 120 (by simp) (by norm_num) (by norm_num)
    (by norm_num [lastNoteEnd])).1

/-- C3 counterexample: a note ending exactly at the measure boundary (2 s,
measure length 2 s) yields 2 chords although `⌈2/2⌉ = 1`: `int(total/md) + 1`
adds a full extra measure when the total is an exact multiple. -/
theorem C3_measure_count_counterexample :
    (detectChords [⟨60, 0, 2, 64⟩] 4 120).length = 2 ∧
      (⌈lastNoteEnd [⟨60, 0, 2, 64⟩] / (60 / 120 * 4)⌉ = 1) := by
  have hl : lastNoteEnd [⟨60, 0, 2, 64⟩] = 2 := by
    norm_num [lastNoteEnd, List.max?]
  constructor
  · rw [detectChords, if_neg (by simp)]
    rw [List.length_map, List.length_range, hl]
    norm_num [pyTrunc]
    decide
  · rw [hl]
    norm_num

/-- A closed merge run spans a standard ladder multiple of the eighth
duration. -/
theorem roundNote_ladder (p : ℤ) (s e : ℚ) (v : ℤ) (ed : ℚ) :
    ∃ dd ∈ ladderEighths, (roundNote p s e v ed).stop - (roundNote p s e v ed).start
      = dd * ed := by
  rw [roundNote]
  rcases h : (ladderEighths.filter
      (fun dd => decide ((e - s) / ed ≤ dd))).min? with _ | x
  · exact ⟨8, by simp [ladderEighths], by simp⟩
  · refine ⟨x, List.mem_of_mem_filter (List.min?_mem (fun a b => min_choice a b) h), ?_⟩
    simp

/-- Every note produced by the merge loop is a closed, rounded run. -/
theorem mergeRuns_shape (ed : ℚ) :
    ∀ (l : List MNote) (st : Option (ℤ × ℚ × ℚ × ℤ)) (m : MNote),
      m ∈ mergeRuns ed l st → ∃ p s e v, m = roundNote p s e v ed := by
  intro l
  induction l with
  | nil =>
      intro st m hm
      match st with
      | none => exact absurd hm (List.not_mem_nil m)
      | some (p, s, e, v) =>
          rw [mergeRuns] at hm
          exact ⟨p, s, e, v, (List.mem_singleton.mp hm)⟩
  | cons n rest ih =>
      intro st m hm
      match st with
      | none =>
          rw [mergeRuns] at hm
          exact ih _ m hm
      | some (p, s, e, v) =>
          rw [mergeRuns] at hm
          split at hm
          · exact ih _ m hm
          · rcases List.mem_cons.mp hm with rfl | hm
            · exact ⟨p, s, e, v, rfl⟩
            · exact ih _ m hm

/-- C5 (amended): two consecutive same-pitch notes are merged exactly when
they overlap or their gap is smaller than TWO eighth-note durations (the
source's `merge_threshold = eighth_duration * 2`, one quarter-note window —
not a single eighth-note window), and every resulting note's duration is a
standard-ladder multiple of the eighth duration (whole, dotted half, half,
dotted quarter, quarter, dotted eighth, eighth, sixteenth; single dots
only). -/
theorem C5_merge_window (n1 n2 : MNote) (ed : ℚ) (hp : n1.pitch = n2.pitch)
    (hs : n1.start ≤ n2.start) (_hed : 0 < ed) :
    ((mergeConsecutiveNotes [n1, n2] ed).length = 1 ↔
      (n2.start - n1.stop < ed * 2 ∨ n2.start ≤ n1.stop)) ∧
    ∀ m ∈ mergeConsecutiveNotes [n1, n2] ed,
      ∃ dd ∈ ladderEighths, m.stop - m.start = dd * ed := by
  have hdp : distinctPitches [n1, n2] = [n1.pitch] := by
    simp [distinctPitches, hp]
  have hfil : [n1, n2].filter (fun n => n.pitch == n1.pitch) = [n1, n2] := by
    simp [hp]
  have hsorted : sSort startLe [n1, n2] = [n1, n2] := by
    simp [sSort, sIns, startLe, hs]
  have hfull : mergeConsecutiveNotes [n1, n2] ed
      = sSort startPitchLe (mergeRuns ed [n1, n2] none) := by
    rw [mergeConsecutiveNotes, if_neg (by simp), hdp]
    simp only [List.flatMap_cons, List.flatMap_nil, List.append_nil]
    rw [hfil, hsorted]
  have hrun : mergeRuns ed [n1, n2] none =
      if n2.start - n1.stop < ed * 2 ∨ n2.start ≤ n1.stop then
        [roundNote n1.pitch n1.start (max n1.stop n2.stop) (max n1.velocity n2.velocity) ed]
      else [roundNote n1.pitch n1.start n1.stop n1.velocity ed,
            roundNote n2.pitch n2.start n2.stop n2.velocity ed] := by
    simp only [mergeRuns]
  constructor
  · by_cases hC : n2.start - n1.stop < ed * 2 ∨ n2.start ≤ n1.stop
    · rw [hfull, hrun, if_pos hC]
      simp [sSort, sIns, hC]
    · rw [hfull, hrun, if_neg hC]
      rw [length_sSort]
      simp [hC]
  · intro m hm
    rw [hfull, mem_sSort] at hm
    rcases mergeRuns_shape ed [n1, n2] none m hm with ⟨p, s, e, v, rfl⟩
    exact roundNote_ladder p s e v ed

/-- C5 witness: two middle-C notes with a one-eighth gap (0.25 s at eighth
duration 0.25 s... gap 0.25 s = one eighth < two eighths) are merged into a
single note, matching the amended window condition. -/
theorem C5_merge_window_witness :
    (mergeConsecutiveNotes [⟨60, 0, 1/4, 64⟩, ⟨60, 1/2, 3/4, 64⟩] (1/4)).length = 1 ↔
      ((1/2 : ℚ) - 1/4 < 1/4 * 2 ∨ (1/2 : ℚ) ≤ 1/4) :=
  (C5_merge_window ⟨60, 0, 1/4, 64⟩ ⟨60, 1/2, 3/4, 64⟩ (1/4) rfl (by norm_num)
    (by norm_num)).1

/-- C5 counterexample: two same-pitch notes whose gap is 1.5 eighth durations
(0.375 s at eighth duration 0.25 s) neither overlap nor lie within a single
eighth-note window, yet the code merges them into one note — the actual
window is `eighth_duration * 2`. -/
theorem C5_merge_window_counterexample :
    (mergeConsecutiveNotes [⟨60, 0, 1/4, 64⟩, ⟨60, 5/8, 7/8, 64⟩] (1/4)).length = 1 ∧
      ¬ ((5/8 : ℚ) - 1/4 < 1/4 ∨ (5/8 : ℚ) ≤ 1/4) := by
  constructor
  · norm_num [mergeConsecutiveNotes, distinctPitches, sSort, sIns, mergeRuns, roundNote,
      ladderEighths, startLe, startPitchLe, List.filter, List.flatMap]
  · norm_num

/-- The dispatch table maps `POWER_OCTAVE` to the power-octave generator. -/
theorem getGenerator_power_octave : getGenerator PatternType.power_octave = powerOctave := rfl

/-- Full evaluation of `generate` on a single C-major chord spanning one
4-beat measure at 120 BPM with the fixed power-octave pattern, octave 3 and
base velocity 65.  The single measure has position ratio 0 < 0.08, so
`_adjust_velocity` lowers the base 65 to max(40, 65-15) = 50 before the
generator runs. -/
theorem arrGenerate_power_eval :
    arrGenerate [⟨0, "major", 0, 2⟩] PatternType.power_octave 120 4 3 65 none =
      [⟨48, 0, 9/20, 50⟩, ⟨60, 0, 9/20, 50⟩, ⟨52, 1/4, 9/20, 38⟩, ⟨55, 1/2, 37/40, 42⟩,
       ⟨48, 1, 29/20, 45⟩, ⟨60, 1, 29/20, 45⟩, ⟨52, 5/4, 29/20, 35⟩, ⟨55, 3/2, 77/40, 40⟩] := by
  norm_num [arrGenerate, analyzeContexts, analyzeContextsGo, getRhNotesInRange,
    genLoop, adjustVelocity, pyTrunc, getGenerator_power_octave,
    powerOctave, pitchesInOctave, chordTemplates, List.find?,
    show (PatternType.power_octave = PatternType.adaptive) = False from by simp]

/-- C7 (amended): for a single C-major chord spanning one 4-beat measure at
120 BPM with pattern power_octave, octave 3 and velocity 65, the generated
accompaniment has exactly 8 events at beats 1, 1.5, 2, 3, 3.5, 4 with pitches
48/60, 52, 55, 48/60, 52, 55 — but `generate` first applies the intro
fade-in (the single measure has position ratio 0 < 0.08), so the adjusted
velocity is 50 and the cited events carry velocities 50/50/38/42; the claimed
65/65/53/57 are what `_power_octave` itself produces when invoked directly
with velocity 65 (offsets 0/−12/−8 from the base). -/
theorem C7_power_octave_scenario :
    arrGenerate [⟨0, "major", 0, 2⟩] PatternType.power_octave 120 4 3 65 none =
      [⟨48, 0, 9/20, 50⟩, ⟨60, 0, 9/20, 50⟩, ⟨52, 1/4, 9/20, 38⟩, ⟨55, 1/2, 37/40, 42⟩,
       ⟨48, 1, 29/20, 45⟩, ⟨60, 1, 29/20, 45⟩, ⟨52, 5/4, 29/20, 35⟩, ⟨55, 3/2, 77/40, 40⟩] ∧
    (powerOctave ⟨0, "major", 0, 2⟩ (1/2) 4 3 65 none).map NoteEvent.velocity =
      [65, 65, 53, 57, 60, 60, 50, 55] := by
  refine ⟨arrGenerate_power_eval, ?_⟩
  norm_num [powerOctave, pitchesInOctave, chordTemplates, List.find?]

/-- C7 counterexample: in the accompaniment generated for the scenario there
is no event of pitch 48 at beat 1 with velocity 65 — the octave-root strikes
at beat 1 carry velocity 50, because `generate` applies the intro fade-in
before invoking the pattern generator. -/
theorem C7_scenario_counterexample :
    ¬ ∃ ev ∈ arrGenerate [⟨0, "major", 0, 2⟩] PatternType.power_octave 120 4 3 65 none,
        ev.pitch = 48 ∧ ev.start = 0 ∧ ev.velocity = 65 := by
  rw [arrGenerate_power_eval]
  rintro ⟨ev, hmem, hp, hs, hv⟩
  simp only [List.mem_cons, List.not_mem_nil, or_false] at hmem
  rcases hmem with rfl | rfl | rfl | rfl | rfl | rfl | rfl | rfl <;> simp_all

/-- Root+fifth events start inside the measure (at least 2 beats). -/
theorem rootFifth_starts (c : ChordR) (spb : ℚ) (beats octv vel : ℤ)
    (ctx : Option MeasureContext)
    (hs : 0 < spb) (hb : 2 ≤ beats) (he : c.end_time = c.start_time + beats * spb) :
    ∀ ev ∈ rootFifth c spb beats octv vel ctx,
      c.start_time ≤ ev.start ∧ ev.start < c.end_time := by
  intro ev hev
  have hbQ : (0:ℚ) < (beats:ℚ) := by exact_mod_cast (show (0:ℤ) < beats by omega)
  rw [rootFifth] at hev
  rcases List.mem_append.mp hev with h | h
  · rcases List.mem_cons.mp h with rfl | h
    · refine ⟨le_refl _, ?_⟩
      rw [he]
      dsimp only
      nlinarith [mul_pos hbQ hs]
    · rcases List.mem_cons.mp h with rfl | h
      · refine ⟨le_refl _, ?_⟩
        rw [he]
        dsimp only
        nlinarith [mul_pos hbQ hs]
      · exact absurd h (List.not_mem_nil ev)
  · split at h
    · rename_i h4
      have h4Q : (4:ℚ) ≤ (beats:ℚ) := by exact_mod_cast h4
      rcases List.mem_cons.mp h with rfl | h
      · refine ⟨?_, ?_⟩
        · dsimp only
          nlinarith
        · rw [he]
          dsimp only
          nlinarith
      · exact absurd h (List.not_mem_nil ev)
    · exact absurd h (List.not_mem_nil ev)

/-- Broken-chord events start inside the measure (at least 2 beats). -/
theorem brokenChord_starts (c : ChordR) (spb : ℚ) (beats octv vel : ℤ)
    (ctx : Option MeasureContext)
    (hs : 0 < spb) (hb : 2 ≤ beats) (he : c.end_time = c.start_time + beats * spb) :
    ∀ ev ∈ brokenChord c spb beats octv vel ctx,
      c.start_time ≤ ev.start ∧ ev.start < c.end_time := by
  intro ev hev
  have hbQ : (0:ℚ) < (beats:ℚ) := by exact_mod_cast (show (0:ℤ) < beats by omega)
  rw [brokenChord] at hev
  split at hev
  · exact rootFifth_starts c spb beats octv vel ctx hs hb he ev hev
  · simp only [List.mem_map, List.mem_range] at hev
    obtain ⟨i, hi, rfl⟩ := hev
    have hiQ : (i:ℚ) < (beats:ℚ) := by
      exact_mod_cast (show ((i:ℤ)) < beats by omega)
    refine ⟨?_, ?_⟩
    · dsimp only
      nlinarith [mul_nonneg (show (0:ℚ) ≤ (i:ℚ) by positivity) hs.le]
    · rw [he]
      dsimp only
      nlinarith [mul_pos hbQ hs, mul_lt_mul_of_pos_right hiQ hs]

/-- Alberti-bass events start inside the measure (at least 2 beats). -/
theorem albertiBass_starts (c : ChordR) (spb : ℚ) (beats octv vel : ℤ)
    (ctx : Option MeasureContext)
    (hs : 0 < spb) (hb : 2 ≤ beats) (he : c.end_time = c.start_time + beats * spb) :
    ∀ ev ∈ albertiBass c spb beats octv vel ctx,
      c.start_time ≤ ev.start ∧ ev.start < c.end_time := by
  intro ev hev
  rw [albertiBass] at hev
  split at hev
  · exact brokenChord_starts c spb beats octv vel ctx hs hb he ev hev
  · simp only [List.mem_map, List.mem_range] at hev
    obtain ⟨i, hi, rfl⟩ := hev
    have hiQ : (i:ℚ) < 2 * (beats:ℚ) := by
      exact_mod_cast (show ((i:ℤ)) < 2 * beats by omega)
    refine ⟨?_, ?_⟩
    · dsimp only
      nlinarith [mul_nonneg (show (0:ℚ) ≤ (i:ℚ) by positivity) (by positivity : (0:ℚ) ≤ spb / 2)]
    · rw [he]
      dsimp only
      nlinarith [mul_pos (sub_pos.mpr hiQ) (by positivity : (0:ℚ) < spb / 2)]

/-- Octave-root events start inside the measure (at least 2 beats). -/
theorem octaveRoot_starts (c : ChordR) (spb : ℚ) (beats octv vel : ℤ)
    (ctx : Option MeasureContext)
    (hs : 0 < spb) (hb : 2 ≤ beats) (he : c.end_time = c.start_time + beats * spb) :
    ∀ ev ∈ octaveRoot c spb beats octv vel ctx,
      c.start_time ≤ ev.start ∧ ev.start < c.end_time := by
  intro ev hev
  have hbQ : (0:ℚ) < (beats:ℚ) := by exact_mod_cast (show (0:ℤ) < beats by omega)
  rw [octaveRoot] at hev
  rcases List.mem_append.mp hev with h | h
  · rcases List.mem_cons.mp h with rfl | h
    · refine ⟨le_refl _, ?_⟩
      rw [he]
      dsimp only
      nlinarith [mul_pos hbQ hs]
    · exact absurd h (List.not_mem_nil ev)
  · split at h
    · rename_i h3
      have h3Q : (3:ℚ) ≤ (beats:ℚ) := by exact_mod_cast h3
      rcases List.mem_cons.mp h with rfl | h
      · refine ⟨?_, ?_⟩
        · dsimp only
          nlinarith
        · rw [he]
          dsimp only
          nlinarith
      · exact absurd h (List.not_mem_nil ev)
    · exact absurd h (List.not_mem_nil ev)

/-- Block-chord events start inside the measure (at least 2 beats). -/
theorem blockChord_starts (c : ChordR) (spb : ℚ) (beats octv vel : ℤ)
    (ctx : Option MeasureContext)
    (hs : 0 < spb) (hb : 2 ≤ beats) (he : c.end_time = c.start_time + beats * spb) :
    ∀ ev ∈ blockChord c spb beats octv vel ctx,
      c.start_time ≤ ev.start ∧ ev.start < c.end_time := by
  intro ev hev
  have hbQ : (0:ℚ) < (beats:ℚ) := by exact_mod_cast (show (0:ℤ) < beats by omega)
  rw [blockChord] at hev
  simp only [List.mem_flatMap] at hev
  obtain ⟨pos, hpos, hev2⟩ := hev
  simp only [List.mem_map] at hev2
  obtain ⟨p, _, rfl⟩ := hev2
  split at hpos
  · rename_i h4
    have h4Q : (4:ℚ) ≤ (beats:ℚ) := by exact_mod_cast h4
    rcases List.mem_cons.mp hpos with rfl | hpos
    · refine ⟨?_, ?_⟩
      · dsimp only
        nlinarith
      · rw [he]
        dsimp only
        nlinarith
    · rcases List.mem_cons.mp hpos with rfl | hpos
      · refine ⟨?_, ?_⟩
        · dsimp only
          nlinarith
        · rw [he]
          dsimp only
          nlinarith
      · exact absurd hpos (List.not_mem_nil pos)
  · rcases List.mem_cons.mp hpos with rfl | hpos
    · refine ⟨?_, ?_⟩
      · dsimp only
        nlinarith
      · rw [he]
        dsimp only
        nlinarith [mul_pos hbQ hs]
    · exact absurd hpos (List.not_mem_nil pos)

/-- Ascending-arpeggio events start inside the measure (at least 2 beats). -/
theorem arpeggioUp_starts (c : ChordR) (spb : ℚ) (beats octv vel : ℤ)
    (ctx : Option MeasureContext)
    (hs : 0 < spb) (hb : 2 ≤ beats) (he : c.end_time = c.start_time + beats * spb) :
    ∀ ev ∈ arpeggioUp c spb beats octv vel ctx,
      c.start_time ≤ ev.start ∧ ev.start < c.end_time := by
  intro ev hev
  have hbQ : (0:ℚ) < (beats:ℚ) := by exact_mod_cast (show (0:ℤ) < beats by omega)
  rw [arpeggioUp] at hev
  simp only [List.mem_map, List.mem_range] at hev
  obtain ⟨i, hi, rfl⟩ := hev
  set L := (pitchesInOctave c octv ++ [(pitchesInOctave c octv).getD 0 0 + 12]).length with hL
  have hLpos : 0 < L := by
    rw [hL]
    simp
  have hLQ : (0:ℚ) < (L:ℚ) := by exact_mod_cast hLpos
  have hiQ : (i:ℚ) < (L:ℚ) := by exact_mod_cast hi
  have hnd : (0:ℚ) < spb * (beats:ℚ) / (L:ℚ) := by positivity
  refine ⟨?_, ?_⟩
  · dsimp only
    nlinarith [mul_nonneg (show (0:ℚ) ≤ (i:ℚ) by positivity) hnd.le]
  · rw [he]
    dsimp only
    have hkey : (i:ℚ) * (spb * (beats:ℚ) / (L:ℚ)) < (beats:ℚ) * spb := by
      rw [show (i:ℚ) * (spb * (beats:ℚ) / (L:ℚ)) = (i:ℚ) * (spb * (beats:ℚ)) / (L:ℚ) from by
        ring]
      rw [div_lt_iff₀ hLQ]
      nlinarith [mul_lt_mul_of_pos_right hiQ (mul_pos hs hbQ)]
    linarith


/-- Stride events start inside the measure (at least 2 beats). -/
theorem stride_starts (c : ChordR) (spb : ℚ) (beats octv vel : ℤ)
    (ctx : Option MeasureContext)
    (hs : 0 < spb) (_hb : 2 ≤ beats) (he : c.end_time = c.start_time + beats * spb) :
    ∀ ev ∈ stride c spb beats octv vel ctx,
      c.start_time ≤ ev.start ∧ ev.start < c.end_time := by
  intro ev hev
  rw [stride] at hev
  simp only [List.mem_flatMap, List.mem_range] at hev
  obtain ⟨beat, hbeat, hev2⟩ := hev
  have hbtQ : (beat:ℚ) < (beats:ℚ) := by
    exact_mod_cast (show ((beat:ℤ)) < beats by omega)
  have hbt0 : (0:ℚ) ≤ (beat:ℚ) := by positivity
  split at hev2 <;> simp only [List.mem_map] at hev2 <;> obtain ⟨p, _, rfl⟩ := hev2 <;>
    refine ⟨?_, ?_⟩
  · dsimp only
    nlinarith [mul_nonneg hbt0 hs.le]
  · rw [he]
    dsimp only
    nlinarith [mul_pos (sub_pos.mpr hbtQ) hs]
  · dsimp only
    nlinarith [mul_nonneg hbt0 hs.le]
  · rw [he]
    dsimp only
    nlinarith [mul_pos (sub_pos.mpr hbtQ) hs]

/-- Walking-bass events start inside the measure (at least 2 beats). -/
theorem walkingBass_starts (c : ChordR) (spb : ℚ) (beats octv vel : ℤ)
    (ctx : Option MeasureContext)
    (hs : 0 < spb) (_hb : 2 ≤ beats) (he : c.end_time = c.start_time + beats * spb) :
    ∀ ev ∈ walkingBass c spb beats octv vel ctx,
      c.start_time ≤ ev.start ∧ ev.start < c.end_time := by
  intro ev hev
  rw [walkingBass] at hev
  simp only [List.mem_map, List.mem_range] at hev
  obtain ⟨i, hi, rfl⟩ := hev
  have hiQ : (i:ℚ) < (beats:ℚ) := by
    exact_mod_cast (show ((i:ℤ)) < beats by omega)
  refine ⟨?_, ?_⟩
  · dsimp only
    nlinarith [mul_nonneg (show (0:ℚ) ≤ (i:ℚ) by positivity) hs.le]
  · rw [he]
    dsimp only
    nlinarith [mul_pos (sub_pos.mpr hiQ) hs]

/-- Oom-pah events start inside the measure (at least 2 beats). -/
theorem oomPah_starts (c : ChordR) (spb : ℚ) (beats octv vel : ℤ)
    (ctx : Option MeasureContext)
    (hs : 0 < spb) (_hb : 2 ≤ beats) (he : c.end_time = c.start_time + beats * spb) :
    ∀ ev ∈ oomPah c spb beats octv vel ctx,
      c.start_time ≤ ev.start ∧ ev.start < c.end_time := by
  intro ev hev
  rw [oomPah] at hev
  simp only [List.mem_flatMap, List.mem_range] at hev
  obtain ⟨beat, hbeat, hev2⟩ := hev
  have hbtQ : (beat:ℚ) < (beats:ℚ) := by
    exact_mod_cast (show ((beat:ℤ)) < beats by omega)
  have hbt0 : (0:ℚ) ≤ (beat:ℚ) := by positivity
  split at hev2
  · rcases List.mem_cons.mp hev2 with rfl | hev2
    · refine ⟨?_, ?_⟩
      · dsimp only
        nlinarith [mul_nonneg hbt0 hs.le]
      · rw [he]
        dsimp only
        nlinarith [mul_pos (sub_pos.mpr hbtQ) hs]
    · exact absurd hev2 (List.not_mem_nil ev)
  · simp only [List.mem_map] at hev2
    obtain ⟨p, _, rfl⟩ := hev2
    refine ⟨?_, ?_⟩
    · dsimp only
      nlinarith [mul_nonneg hbt0 hs.le]
    · rw [he]
      dsimp only
      nlinarith [mul_pos (sub_pos.mpr hbtQ) hs]

/-- Ostinato events start inside the measure (at least 2 beats). -/
theorem ostinato_starts (c : ChordR) (spb : ℚ) (beats octv vel : ℤ)
    (ctx : Option MeasureContext)
    (hs : 0 < spb) (_hb : 2 ≤ beats) (he : c.end_time = c.start_time + beats * spb) :
    ∀ ev ∈ ostinato c spb beats octv vel ctx,
      c.start_time ≤ ev.start ∧ ev.start < c.end_time := by
  intro ev hev
  rw [ostinato] at hev
  simp only [List.mem_map, List.mem_range] at hev
  obtain ⟨i, hi, rfl⟩ := hev
  have hiQ : (i:ℚ) < 4 * (beats:ℚ) := by
    exact_mod_cast (show ((i:ℤ)) < 4 * beats by omega)
  refine ⟨?_, ?_⟩
  · dsimp only
    nlinarith [mul_nonneg (show (0:ℚ) ≤ (i:ℚ) by positivity) (by positivity : (0:ℚ) ≤ spb / 4)]
  · rw [he]
    dsimp only
    nlinarith [mul_pos (sub_pos.mpr hiQ) (by positivity : (0:ℚ) < spb / 4)]

/-- Power-octave events start inside the measure (at least 2 beats). -/
theorem powerOctave_starts (c : ChordR) (spb : ℚ) (beats octv vel : ℤ)
    (ctx : Option MeasureContext)
    (hs : 0 < spb) (hb : 2 ≤ beats) (he : c.end_time = c.start_time + beats * spb) :
    ∀ ev ∈ powerOctave c spb beats octv vel ctx,
      c.start_time ≤ ev.start ∧ ev.start < c.end_time := by
  intro ev hev
  have hbQ : (0:ℚ) < (beats:ℚ) := by exact_mod_cast (show (0:ℤ) < beats by omega)
  have hb2Q : (2:ℚ) ≤ (beats:ℚ) := by exact_mod_cast hb
  rw [powerOctave] at hev
  rcases List.mem_append.mp hev with h | h
  · rcases List.mem_cons.mp h with rfl | h
    · refine ⟨le_refl _, ?_⟩
      rw [he]
      dsimp only
      nlinarith [mul_pos hbQ hs]
    · rcases List.mem_cons.mp h with rfl | h
      · refine ⟨le_refl _, ?_⟩
        rw [he]
        dsimp only
        nlinarith [mul_pos hbQ hs]
      · rcases List.mem_cons.mp h with rfl | h
        · refine ⟨?_, ?_⟩
          · dsimp only
            nlinarith
          · rw [he]
            dsimp only
            nlinarith
        · rcases List.mem_cons.mp h with rfl | h
          · refine ⟨?_, ?_⟩
            · dsimp only
              nlinarith
            · rw [he]
              dsimp only
              nlinarith
          · exact absurd h (List.not_mem_nil ev)
  · split at h
    · rename_i h4
      have h4Q : (4:ℚ) ≤ (beats:ℚ) := by exact_mod_cast h4
      rcases List.mem_cons.mp h with rfl | h
      · refine ⟨?_, ?_⟩
        · dsimp only
          nlinarith
        · rw [he]
          dsimp only
          nlinarith
      · rcases List.mem_cons.mp h with rfl | h
        · refine ⟨?_, ?_⟩
          · dsimp only
            nlinarith
          · rw [he]
            dsimp only
            nlinarith
        · rcases List.mem_cons.mp h with rfl | h
          · refine ⟨?_, ?_⟩
            · dsimp only
              nlinarith
            · rw [he]
              dsimp only
              nlinarith
          · rcases List.mem_cons.mp h with rfl | h
            · refine ⟨?_, ?_⟩
              · dsimp only
                nlinarith
              · rw [he]
                dsimp only
                nlinarith
            · exact absurd h (List.not_mem_nil ev)
    · exact absurd h (List.not_mem_nil ev)

/-- Tremolo-chord events start inside the measure (at least 2 beats). -/
theorem tremoloChord_starts (c : ChordR) (spb : ℚ) (beats octv vel : ℤ)
    (ctx : Option MeasureContext)
    (hs : 0 < spb) (hb : 2 ≤ beats) (he : c.end_time = c.start_time + beats * spb) :
    ∀ ev ∈ tremoloChord c spb beats octv vel ctx,
      c.start_time ≤ ev.start ∧ ev.start < c.end_time := by
  intro ev hev
  rw [tremoloChord] at hev
  split at hev
  · exact powerOctave_starts c spb beats octv vel ctx hs hb he ev hev
  · simp only [List.mem_flatMap, List.mem_range] at hev
    obtain ⟨i, hi, hev2⟩ := hev
    have hiQ : (i:ℚ) < 2 * (beats:ℚ) := by
      exact_mod_cast (show ((i:ℤ)) < 2 * beats by omega)
    have hi0 : (0:ℚ) ≤ (i:ℚ) := by positivity
    simp only [List.mem_map] at hev2
    obtain ⟨p, _, rfl⟩ := hev2
    refine ⟨?_, ?_⟩
    · dsimp only
      nlinarith [mul_nonneg hi0 (by positivity : (0:ℚ) ≤ spb / 2)]
    · rw [he]
      dsimp only
      nlinarith [mul_pos (sub_pos.mpr hiQ) (by positivity : (0:ℚ) < spb / 2)]

/-- C10 (amended): for every generator in the dispatch table and every chord
whose span is `beats_per_measure × seconds_per_beat` with at least 2 beats
per measure, every emitted note event starts inside the chord's own measure:
`start_time ≤ start < end_time` (end times may overhang).  With a single
beat per measure the power-octave generator violates this (see the
counterexample), so the bound `beats ≥ 2` is required. -/
theorem C10_generator_starts :
    ∀ gp ∈ dispatchTable, ∀ (c : ChordR) (spb : ℚ) (beats octv vel : ℤ)
      (ctx : Option MeasureContext), 0 < spb → 2 ≤ beats →
      c.end_time = c.start_time + beats * spb →
      ∀ ev ∈ gp.2 c spb beats octv vel ctx,
        c.start_time ≤ ev.start ∧ ev.start < c.end_time := by
  intro gp hgp
  simp only [dispatchTable, List.mem_cons, List.not_mem_nil, or_false] at hgp
  rcases hgp with rfl | rfl | rfl | rfl | rfl | rfl | rfl | rfl | rfl | rfl | rfl | rfl
  · exact fun c spb beats octv vel ctx hs hb he => brokenChord_starts c spb beats octv vel ctx hs hb he
  · exact fun c spb beats octv vel ctx hs hb he => albertiBass_starts c spb beats octv vel ctx hs hb he
  · exact fun c spb beats octv vel ctx hs hb he => octaveRoot_starts c spb beats octv vel ctx hs hb he
  · exact fun c spb beats octv vel ctx hs hb he => blockChord_starts c spb beats octv vel ctx hs hb he
  · exact fun c spb beats octv vel ctx hs hb he => arpeggioUp_starts c spb beats octv vel ctx hs hb he
  · exact fun c spb beats octv vel ctx hs hb he => rootFifth_starts c spb beats octv vel ctx hs hb he
  · exact fun c spb beats octv vel ctx hs hb he => stride_starts c spb beats octv vel ctx hs hb he
  · exact fun c spb beats octv vel ctx hs hb he => walkingBass_starts c spb beats octv vel ctx hs hb he
  · exact fun c spb beats octv vel ctx hs hb he => oomPah_starts c spb beats octv vel ctx hs hb he
  · exact fun c spb beats octv vel ctx hs hb he => ostinato_starts c spb beats octv vel ctx hs hb he
  · exact fun c spb beats octv vel ctx hs hb he => powerOctave_starts c spb beats octv vel ctx hs hb he
  · exact fun c spb beats octv vel ctx hs hb he => tremoloChord_starts c spb beats octv vel ctx hs hb he

/-- C10 witness: the first power-octave event for a C-major chord over a
4-beat measure of span 2 s starts at the chord start, inside the measure. -/
theorem C10_generator_starts_witness :
    (⟨0, "major", 0, 2⟩ : ChordR).start_time ≤ ((⟨48, 0, 9/20, 65⟩ : NoteEvent)).start ∧
      ((⟨48, 0, 9/20, 65⟩ : NoteEvent)).start < (⟨0, "major", 0, 2⟩ : ChordR).end_time :=
  C10_generator_starts (PatternType.power_octave, powerOctave) (by simp [dispatchTable])
    ⟨0, "major", 0, 2⟩ (1/2) 4 3 65 none (by norm_num) (by norm_num) (by norm_num)
    ⟨48, 0, 9/20, 65⟩
    (by norm_num [powerOctave, pitchesInOctave, chordTemplates, List.find?])

/-- C10 counterexample: with beats_per_measure = 1 (chord span = 1 × spb),
the power-octave generator emits its beat-2 fifth at
`start_time + spb = end_time`, i.e. an event that begins exactly at (not
inside) its own measure, refuting the claim as stated for all of the twelve
generators. -/
theorem C10_boundary_counterexample :
    ∃ ev ∈ powerOctave ⟨0, "major", 0, 1/2⟩ (1/2) 1 3 65 none,
      ¬ (ev.start < (⟨0, "major", 0, 1/2⟩ : ChordR).end_time) := by
  refine ⟨⟨55, 1/2, 37/40, 57⟩, ?_, by norm_num⟩
  norm_num [powerOctave, pitchesInOctave, chordTemplates, List.find?]

end NoteFlow
